import Mathlib

/-!
Verification development for the umlfri2 import pipeline
(src/umlfri2/application/importers).  The Python source is shallowly
embedded: file contents are lists of characters, Python dicts are
insertion-ordered association lists, and each embedded function mirrors
the corresponding function of the source file named in its doc comment.
-/

namespace UmlfriImport

/-- Modelled from the spec: the shared `TypeDescriptor` dataclass lives in
`importers/base.py`, which is not part of the provided sources; its shape
and defaults are given by spec section 3 and by the identical dataclass in
`java.py`. -/
structure TypeDescriptor where
  name : String
  qualifier : Option String := none
  arguments : List TypeDescriptor := []
  dimensions : Nat := 0

/-- Modelled from the spec: `FieldModel` of `importers/base.py` (absent from
src), shape per spec section 3. -/
structure FieldModel where
  name : String
  typeDescriptor : Option TypeDescriptor
  modifiers : List String
  isInstantiated : Bool := false

/-- Modelled from the spec: `MethodParameter` of `importers/base.py` (absent
from src). -/
structure MethodParameter where
  name : String
  typeDescriptor : Option TypeDescriptor

/-- Modelled from the spec: `MethodModel` of `importers/base.py` (absent from
src). -/
structure MethodModel where
  name : String
  returnType : Option TypeDescriptor
  parameters : List MethodParameter
  modifiers : List String
  isConstructor : Bool

/-- Modelled from the spec: `TypeModel` of `importers/base.py` (absent from
src), shape per spec section 3. -/
structure TypeModel where
  name : String
  package : Option String
  kind : String
  modifiers : List String
  fields : List FieldModel
  methods : List MethodModel
  extendsList : List TypeDescriptor
  implements : List TypeDescriptor
  sourcePath : String
  enumConstants : List String := []

/-- Modelled from the spec: derived `full_name` = `package + "." + name` when
a package is present, else `name` (spec section 3; identical property on
`JavaTypeModel` in java.py lines 136-140). -/
def TypeModel.fullName (m : TypeModel) : String :=
  match m.package with
  | some p => p ++ "." ++ m.name
  | none => m.name

/-! ## java.py: data model -/

/-- java.py `ImportContext`: explicit import aliases and wildcard import
paths.  The Python dict of direct imports is an association list. -/
structure ImportContext where
  directImports : List (String × String) := []
  wildcardImports : List String := []

/-- java.py `JavaField`. -/
structure JavaField where
  name : String
  typeDescriptor : Option TypeDescriptor
  modifiers : List String

/-- java.py `JavaMethodParameter`. -/
structure JavaMethodParameter where
  name : String
  typeDescriptor : Option TypeDescriptor

/-- java.py `JavaMethod`. -/
structure JavaMethod where
  name : String
  returnType : Option TypeDescriptor
  parameters : List JavaMethodParameter
  modifiers : List String
  isConstructor : Bool := false

/-- java.py `JavaTypeModel`. -/
structure JavaTypeModel where
  name : String
  package : Option String
  kind : String
  modifiers : List String
  fields : List JavaField
  methods : List JavaMethod
  extendsList : List TypeDescriptor
  implements : List TypeDescriptor
  imports : ImportContext
  sourcePath : String
  enumConstants : List String := []

/-- java.py `JavaTypeModel.full_name`. -/
def JavaTypeModel.fullName (m : JavaTypeModel) : String :=
  match m.package with
  | some p => p ++ "." ++ m.name
  | none => m.name

/-- java.py `TypeDescriptor.direct_full_name`. -/
def TypeDescriptor.directFullName (d : TypeDescriptor) : Option String :=
  match d.qualifier with
  | some q => some (q ++ "." ++ d.name)
  | none => none

/-- java.py `VISIBILITY_MAP` lookup as performed by the `visibility`
properties: the first of public, private, protected found among the
modifiers wins (Python dict iteration follows insertion order), else `~`. -/
def javaVisibility (modifiers : List String) : String :=
  if modifiers.contains "public" then "+"
  else if modifiers.contains "private" then "-"
  else if modifiers.contains "protected" then "#"
  else "~"

/-! ## java.py: parse-time duplicate merging (JavaSourceParser.parse_files)

The embedded merge receives the sequence of successfully converted type
models in file order (reading and javalang parsing are I/O and are outside
the embedding); the run-wide dict of types is an association list. -/

/-- Key membership of a Python dict, as tested by `full_name in types`. -/
def containsKey {α : Type} (table : List (String × α)) (k : String) : Bool :=
  table.any (fun p => p.1 == k)

/-- java.py parse_files lines 205-210: the duplicate warning text (the source
wraps the full name in single quote characters, which are elided here) and
the first-occurrence-wins insertion. -/
def javaDupMessage (fullName existingPath : String) : String :=
  "Duplicate type " ++ fullName ++ " ignored (first defined in " ++ existingPath ++ ")"

/-- One iteration of the java.py parse_files merge loop. -/
def javaMergeStep (acc : List (String × JavaTypeModel) × List String) (m : JavaTypeModel) :
    List (String × JavaTypeModel) × List String :=
  if containsKey acc.1 m.fullName then
    match acc.1.lookup m.fullName with
    | some existing => (acc.1, acc.2 ++ [javaDupMessage m.fullName existing.sourcePath])
    | none => (acc.1, acc.2 ++ [javaDupMessage m.fullName ""])
  else
    (acc.1 ++ [(m.fullName, m)], acc.2)

/-- java.py `JavaSourceParser.parse_files` restricted to its merge of the
converted models (duplicates warned and skipped, first occurrence kept). -/
def javaParseTypesOnly (models : List JavaTypeModel) :
    List (String × JavaTypeModel) × List String :=
  models.foldl javaMergeStep ([], [])

/-- Python dict item assignment `d[k] = v`: an existing key keeps its
position and gets the new value, a fresh key is appended. -/
def dictSet {α : Type} : List (String × α) → String → α → List (String × α)
  | [], k, v => [(k, v)]
  | (k0, v0) :: rest, k, v =>
    if k0 == k then (k0, v) :: rest else (k0, v0) :: dictSet rest k v

/-- python.py `PythonSourceParser.parse_files` lines 38-40 restricted to its
merge of the extracted models: `types[type_model.full_name] = type_model`
with no duplicate check, so a later occurrence replaces an earlier one and
no warning is recorded. -/
def pythonParseTypesOnly (models : List TypeModel) :
    List (String × TypeModel) × List String :=
  (models.foldl (fun t m => dictSet t m.fullName m) [], [])

/-- csharp.py `CSharpSourceParser.parse_files` lines 63-65 restricted to its
merge of the extracted models: identical overwrite-without-warning
behaviour to the Python front-end. -/
def csharpParseTypesOnly (models : List TypeModel) :
    List (String × TypeModel) × List String :=
  (models.foldl (fun t m => dictSet t m.fullName m) [], [])

/-- cpp.py `CppSourceParser.parse_files` lines 73-77 restricted to its merge
of the extracted models: `if type_model.full_name not in types` keeps the
first occurrence and silently drops later ones, appending no warning. -/
def cppParseTypesOnly (models : List TypeModel) :
    List (String × TypeModel) × List String :=
  (models.foldl (fun t m => if containsKey t m.fullName then t else t ++ [(m.fullName, m)]) [], [])

/-! ## java.py: JavaTypeResolver -/

/-- java.py JavaTypeResolver constructor: the secondary index simple name to
the set of full names bearing it (a set, so duplicate keys count once). -/
def simpleIndex (table : List (String × JavaTypeModel)) (simple : String) : List String :=
  ((table.filter (fun p => p.2.name == simple)).map (fun p => p.1)).dedup

/-- java.py JavaTypeResolver.resolve lines 357-360: the wildcard import loop,
returning the first prefix whose candidate full name is a known type. -/
def findWildcard (table : List (String × JavaTypeModel)) :
    List String → String → Option String
  | [], _ => none
  | w :: ws, simple =>
    let candidate := w ++ "." ++ simple
    if containsKey table candidate then some candidate else findWildcard table ws simple

/-- java.py `JavaTypeResolver.resolve` (lines 347-370): explicit qualifier,
then explicit import alias, then wildcard imports, then same package, then
the unique-simple-name fallback, then the literal qualifier. -/
def resolve (table : List (String × JavaTypeModel)) (descriptor : Option TypeDescriptor)
    (context : JavaTypeModel) : Option String :=
  match descriptor with
  | none => none
  | some d =>
    let direct := d.directFullName
    if (match direct with | some f => containsKey table f | none => false) then direct
    else
      let simple := d.name
      let directImport := context.imports.directImports.lookup simple
      if (match directImport with | some f => containsKey table f | none => false) then
        directImport
      else
        match findWildcard table context.imports.wildcardImports simple with
        | some candidate => some candidate
        | none =>
          let packageHit :=
            match context.package with
            | some p =>
              let candidate := p ++ "." ++ simple
              if containsKey table candidate then some candidate else none
            | none => none
          match packageHit with
          | some candidate => some candidate
          | none =>
            let ms := simpleIndex table simple
            if ms.length == 1 then ms.head?
            else
              match direct with
              | some f => some f
              | none => none

/-! ## java.py: JavaModelBuilder -/

/-- java.py connection type identifiers (lines 25-27). -/
def GENERALISATION_CONNECTION : String := "generalisation"

/-- java.py connection type identifier for realisations. -/
def IMPLEMENTATION_CONNECTION : String := "implementation"

/-- java.py connection type identifier for associations. -/
def ASSOCIATION_CONNECTION : String := "association"

/-- java.py display line 60: `"[]" * dimensions`. -/
def dimsSuffix : Nat → String
  | 0 => ""
  | n + 1 => "[]" ++ dimsSuffix n

/-- java.py `TypeDescriptor.display` (lines 53-61): qualifier-dotted name,
angle-bracketed arguments joined by comma-space, and `[]` per dimension. -/
def displayTD : TypeDescriptor → String
  | ⟨name, qualifier, arguments, dimensions⟩ =>
    let base := match qualifier with
      | some q => q ++ "." ++ name
      | none => name
    let base := if arguments.isEmpty then base
      else base ++ "<" ++ String.intercalate ", " (arguments.attach.map (fun a => displayTD a.1)) ++ ">"
    base ++ dimsSuffix dimensions
termination_by d => sizeOf d
decreasing_by
  obtain ⟨val, hval⟩ := a
  have := List.sizeOf_lt_of_mem hval
  simp only [TypeDescriptor.mk.sizeOf_spec]
  omega

/-- One attribute row of the infjavauml element data, with exactly the
values set by java.py `_create_class_element` and `_populate_attributes`
(fields the source does not set stay `none`). -/
structure AttrRow where
  name : String
  typeText : Option String := none
  visibility : String
  isStatic : Option Bool := none

/-- java.py `_create_class_element` lines 469-476 restricted to the
attribute rows: an enum with constants lists each constant with public
visibility, any other type lists its fields via `_populate_attributes`. -/
def createClassElementAttrRows (model : JavaTypeModel) : List AttrRow :=
  if model.kind == "enum" && !model.enumConstants.isEmpty then
    model.enumConstants.map (fun c => { name := c, visibility := "+" })
  else
    model.fields.map (fun f =>
      { name := f.name
        typeText := some (match f.typeDescriptor with | some d => displayTD d | none => "")
        visibility := javaVisibility f.modifiers
        isStatic := some (f.modifiers.contains "static") })

/-- Key of a created connection in java.py `_ensure_connection`:
connection type id, source element identity, target element identity
(element save ids are modelled by the full names the builder keys its
`_class_elements` dict with). -/
def ConnKey : Type := String × String × String

instance : DecidableEq ConnKey := by
  unfold ConnKey
  infer_instance

/-- java.py `_ensure_connection` (lines 597-606): the set of already created
keys is threaded through; an existing key creates nothing, a fresh key
creates one connection and is recorded. -/
def ensureConnection (conns : List ConnKey) (key : ConnKey) : List ConnKey × Nat :=
  if key ∈ conns then (conns, 0) else (conns ++ [key], 1)

/-- java.py build() loop: the element table holds one element per parsed
type model, keyed by its full name. -/
def elementNames (table : List (String × JavaTypeModel)) : List String :=
  table.map (fun p => p.2.fullName)

/-- Membership in the builder's `_class_elements` dict. -/
def hasElement (table : List (String × JavaTypeModel)) : Option String → Bool
  | some n => (elementNames table).contains n
  | none => false

/-- java.py `_resolve_field_targets` (lines 586-595): the resolved field
type plus the resolved top-level generic arguments, as a set (modelled as
a first-occurrence deduplicated list). -/
def resolveFieldTargets (table : List (String × JavaTypeModel)) (descriptor : TypeDescriptor)
    (context : JavaTypeModel) : List String :=
  ((resolve table (some descriptor) context).toList ++
    descriptor.arguments.filterMap (fun a => resolve table (some a) context)).dedup

/-- Connection keys attempted by java.py `_create_connections` and
`_create_associations` for one type model, in loop order: generalisations
from `extends`, realisations (or generalisations for non-class kinds) from
`implements`, associations from field type descriptors and their generic
arguments; a target without an element yields no attempt. -/
def connectionRequestsFor (table : List (String × JavaTypeModel)) (m : JavaTypeModel) :
    List ConnKey :=
  (m.extendsList.filterMap (fun base =>
    let target := resolve table (some base) m
    if hasElement table target then
      target.map (fun t => ((GENERALISATION_CONNECTION, m.fullName, t) : ConnKey))
    else none)) ++
  (m.implements.filterMap (fun iface =>
    let target := resolve table (some iface) m
    if hasElement table target then
      let kindId := if m.kind == "class" then IMPLEMENTATION_CONNECTION
        else GENERALISATION_CONNECTION
      target.map (fun t => ((kindId, m.fullName, t) : ConnKey))
    else none)) ++
  (m.fields.flatMap (fun f =>
    match f.typeDescriptor with
    | none => []
    | some d =>
      (resolveFieldTargets table d m).filterMap (fun t =>
        if hasElement table (some t) then
          some ((ASSOCIATION_CONNECTION, m.fullName, t) : ConnKey)
        else none)))

/-- All connection keys attempted during one java.py `_create_connections`
run over the types table, in iteration order. -/
def connectionRequests (table : List (String × JavaTypeModel)) : List ConnKey :=
  table.flatMap (fun p => connectionRequestsFor table p.2)

/-- java.py `_create_connections` and `_create_associations`: every
attempted key goes through `_ensure_connection` against the accumulated
`_connections` set; the created-key list and the created count result. -/
def createConnections (table : List (String × JavaTypeModel)) : List ConnKey × Nat :=
  (connectionRequests table).foldl
    (fun acc key =>
      let r := ensureConnection acc.1 key
      (r.1, acc.2 + r.2))
    ([], 0)

/-! ## java.py: JavaModelBuilder._layout_classes

The layout is a pure function of the measured minimal sizes of the placed
visuals, embedded here as a list of (width, height) pairs in creation
order.  Python's `int(math.sqrt(count))` is modelled as `Nat.sqrt`.  The
imperative running-max and prefix-sum loops are rendered as folds. -/

/-- java.py `BASE_ELEMENT_WIDTH`. -/
def BASE_ELEMENT_WIDTH : Nat := 240

/-- java.py `BASE_ELEMENT_HEIGHT`. -/
def BASE_ELEMENT_HEIGHT : Nat := 140

/-- java.py `ELEMENT_SPACING_X`. -/
def ELEMENT_SPACING_X : Nat := 60

/-- java.py `ELEMENT_SPACING_Y`. -/
def ELEMENT_SPACING_Y : Nat := 60

/-- layout line 517: `columns = max(1, int(math.sqrt(count)))`. -/
def layoutColumns (count : Nat) : Nat := max 1 (Nat.sqrt count)

/-- layout line 518: `rows = math.ceil(count / columns)`. -/
def layoutRows (count columns : Nat) : Nat := (count + columns - 1) / columns

/-- layout line 528: the width a visual is given. -/
def nodeWidth (minimal : Nat × Nat) : Nat := max BASE_ELEMENT_WIDTH minimal.1

/-- layout line 529: the height a visual is given. -/
def nodeHeight (minimal : Nat × Nat) : Nat := max BASE_ELEMENT_HEIGHT minimal.2

/-- Width assigned to the visual at index `i`. -/
def widthAt (vs : List (Nat × Nat)) (i : Nat) : Nat := nodeWidth (vs.getD i (0, 0))

/-- Height assigned to the visual at index `i`. -/
def heightAt (vs : List (Nat × Nat)) (i : Nat) : Nat := nodeHeight (vs.getD i (0, 0))

/-- layout lines 520-531: `column_widths[c]`, the running maximum of the
base width and the widths of the visuals placed in column `c`. -/
def columnWidth (vs : List (Nat × Nat)) (cols c : Nat) : Nat :=
  ((List.range vs.length).filter (fun i => i % cols == c)).foldl
    (fun acc i => max acc (widthAt vs i)) BASE_ELEMENT_WIDTH

/-- layout lines 521-531: `row_heights[r]`. -/
def rowHeight (vs : List (Nat × Nat)) (cols r : Nat) : Nat :=
  ((List.range vs.length).filter (fun i => i / cols == r)).foldl
    (fun acc i => max acc (heightAt vs i)) BASE_ELEMENT_HEIGHT

/-- layout lines 534-538: accumulated column offsets (prefix sums of column
width plus horizontal spacing). -/
def columnOffset (vs : List (Nat × Nat)) (cols : Nat) : Nat → Nat
  | 0 => 0
  | c + 1 => columnOffset vs cols c + columnWidth vs cols c + ELEMENT_SPACING_X

/-- layout lines 540-544: accumulated row offsets. -/
def rowOffset (vs : List (Nat × Nat)) (cols : Nat) : Nat → Nat
  | 0 => 0
  | r + 1 => rowOffset vs cols r + rowHeight vs cols r + ELEMENT_SPACING_Y

/-- layout lines 546-552: x position of the visual at index `i`
(origin 40 plus its column's offset; `column = idx % columns`). -/
def nodeX (vs : List (Nat × Nat)) (cols i : Nat) : Nat :=
  40 + columnOffset vs cols (i % cols)

/-- layout lines 546-552: y position of the visual at index `i`
(`row = idx // columns`). -/
def nodeY (vs : List (Nat × Nat)) (cols i : Nat) : Nat :=
  40 + rowOffset vs cols (i / cols)

/-- java.py `_layout_classes` as a whole: for each visual, the final
(x, y, width, height) after `move` and `resize`. -/
def layoutClasses (vs : List (Nat × Nat)) : List (Nat × Nat × Nat × Nat) :=
  let cols := layoutColumns vs.length
  (List.range vs.length).map (fun i =>
    (nodeX vs cols i, nodeY vs cols i, widthAt vs i, heightAt vs i))

/-! ## python.py: the `ast` fragment the parser inspects

The embedded expression and statement types cover the node shapes that
`PythonSourceParser` pattern-matches on; annotation forms the source
handles but the embedding omits (Subscript, BinOp) simply do not occur in
the embedded fragment. -/

/-- Constant values as classified by python.py `_infer_type_from_value`
(note that Python's `isinstance(value, int)` also accepts booleans). -/
inductive PyConst where
  | str (s : String)
  | int
  | float
  | bool
  | noneVal
deriving DecidableEq

/-- Embedded `ast` expression nodes. -/
inductive PyExpr where
  | name (id : String)
  | attribute (value : PyExpr) (attr : String)
  | call (func : PyExpr) (args : List PyExpr)
  | constant (value : PyConst)
  | listLit
  | dictLit
  | setLit

/-- A formal parameter (`ast.arg`): its name and optional annotation. -/
structure PyArg where
  arg : String
  annot : Option PyExpr

/-- Embedded `ast` statement nodes.  `compound` stands for any other
statement carrying nested statements (if/for/while/with/try bodies), which
`ast.walk` descends into but the parser never matches directly. -/
inductive PyStmt where
  | assign (targets : List PyExpr) (value : PyExpr)
  | annAssign (target : PyExpr) (annot : Option PyExpr) (value : Option PyExpr)
  | functionDef (name : String) (decorators : List PyExpr) (args : List PyArg)
      (body : List PyStmt) (returns : Option PyExpr) (isAsync : Bool)
  | classDef (name : String) (body : List PyStmt)
  | compound (children : List PyStmt)
  | exprStmt (e : PyExpr)

/-- Nested statements of a statement node, for `ast.walk`. -/
def stmtChildren : PyStmt → List PyStmt
  | .functionDef _ _ _ body _ _ => body
  | .classDef _ body => body
  | .compound children => children
  | _ => []

mutual

/-- Node-count measure used to justify termination of the walk. -/
def stmtSize : PyStmt → Nat
  | .functionDef _ _ _ body _ _ => 1 + stmtListSize body
  | .classDef _ body => 1 + stmtListSize body
  | .compound children => 1 + stmtListSize children
  | _ => 1

/-- Sum of `stmtSize` over a list. -/
def stmtListSize : List PyStmt → Nat
  | [] => 0
  | s :: rest => stmtSize s + stmtListSize rest

end

/-- `ast.walk`: breadth-first traversal yielding every statement reachable
from the queue (expression children carry no statements). -/
def walkStmts (queue : List PyStmt) : List PyStmt :=
  match queue with
  | [] => []
  | s :: rest => s :: walkStmts (rest ++ stmtChildren s)
termination_by stmtListSize queue
decreasing_by
  have happ : ∀ a b : List PyStmt, stmtListSize (a ++ b) = stmtListSize a + stmtListSize b := by
    intro a b
    induction a with
    | nil => simp [stmtListSize]
    | cons x xs ih => simp [stmtListSize, ih]; omega
  have hchild : stmtListSize (stmtChildren s) < stmtSize s := by
    cases s <;> simp [stmtChildren, stmtSize, stmtListSize]
  simp only [stmtListSize, happ]
  omega

/-- Descriptor with only a simple name, as built by python.py via
`TypeDescriptor(name=...)`. -/
def simpleTD (name : String) : TypeDescriptor :=
  { name := name, qualifier := none, arguments := [], dimensions := 0 }

/-- python.py `_get_decorator_name` (lines 156-163). -/
def getDecoratorName : PyExpr → Option String
  | .name id => some id
  | .attribute _ attr => some attr
  | .call func _ => getDecoratorName func
  | _ => none

/-- python.py `_get_base_name` restricted to the embedded expression
fragment (the Subscript branch has no embedded counterpart). -/
def getBaseName : PyExpr → Option String
  | .name id => some id
  | .attribute _ attr => some attr
  | _ => none

/-- python.py `_convert_annotation` restricted to the embedded expression
fragment: a bare name, a string constant (forward reference) and a
qualified attribute produce descriptors; everything else yields `None`. -/
def convertAnnot : Option PyExpr → Option TypeDescriptor
  | some (.name id) => some (simpleTD id)
  | some (.constant (.str s)) => some (simpleTD s)
  | some (.attribute _ attr) => some (simpleTD attr)
  | _ => none

/-- Python `str.startswith`, as a character-list prefix test. -/
def strStartsWith (s p : String) : Bool := p.data.isPrefixOf s.data

/-- Python `str.endswith`, as a character-list suffix test. -/
def strEndsWith (s p : String) : Bool := p.data.isSuffixOf s.data

/-- python.py field-name visibility convention used by `_convert_method`,
`_convert_annotated_field` and `_extract_init_fields`: double leading
underscore is private, single is protected, else public (for methods,
dunder names are public again). -/
def pyNameModifiers (name : String) : List String :=
  if strStartsWith name "__" then ["private"]
  else if strStartsWith name "_" then ["protected"]
  else ["public"]

/-- python.py `_infer_type_from_value` (lines 364-391) on the embedded
expression fragment; `isinstance(value, int)` is true for booleans, so a
boolean constant is typed `int`. -/
def inferTypeFromValue : Option PyExpr → Option TypeDescriptor
  | some (.call (.name id) _) => some (simpleTD id)
  | some (.call (.attribute _ attr) _) => some (simpleTD attr)
  | some .listLit => some (simpleTD "list")
  | some .dictLit => some (simpleTD "dict")
  | some .setLit => some (simpleTD "set")
  | some (.constant (.str _)) => some (simpleTD "str")
  | some (.constant .int) => some (simpleTD "int")
  | some (.constant .bool) => some (simpleTD "int")
  | some (.constant .float) => some (simpleTD "float")
  | _ => none

/-- Whether an expression is an `ast.Call` (python.py `is_instantiated`). -/
def isCallExpr : Option PyExpr → Bool
  | some (.call _ _) => true
  | _ => false

/-- The attribute name when the expression is `self.<attr>`, else none
(the `isinstance(target, ast.Attribute)` plus
`target.value.id == "self"` test of `_extract_init_fields`). -/
def selfAttrName : PyExpr → Option String
  | .attribute (.name v) attr => if v == "self" then some attr else none
  | _ => none

/-- Fields contributed by one walked statement in python.py
`_extract_init_fields` (lines 274-317): assignments and annotated
assignments whose target is `self.<attr>`. -/
def stmtInitFields : PyStmt → List FieldModel
  | .assign targets value =>
    targets.filterMap (fun t =>
      match selfAttrName t with
      | some attr =>
        some { name := attr
               typeDescriptor := inferTypeFromValue (some value)
               modifiers := pyNameModifiers attr
               isInstantiated := isCallExpr (some value) }
      | none => none)
  | .annAssign target annot value =>
    match selfAttrName target with
    | some attr =>
      [{ name := attr
         typeDescriptor := convertAnnot annot
         modifiers := pyNameModifiers attr
         isInstantiated := isCallExpr value }]
    | none => []
  | _ => []

/-- Whether a class-body item is the `__init__` `ast.FunctionDef`
(python.py line 273; an async definition is not an `ast.FunctionDef`). -/
def isInitDef : PyStmt → Bool
  | .functionDef name _ _ _ _ isAsync => name == "__init__" && !isAsync
  | _ => false

/-- python.py `_extract_init_fields` (lines 268-320): walk the first
`__init__` function of the class body and collect `self.<attr>`
assignment targets as fields. -/
def extractInitFields (classBody : List PyStmt) : List FieldModel :=
  match classBody.find? isInitDef with
  | some init => (walkStmts [init]).flatMap stmtInitFields
  | none => []

/-- python.py `_convert_method` decorator scan (lines 195-207): whether any
decorator resolves to the given name. -/
def hasDecorator (decorators : List PyExpr) (name : String) : Bool :=
  decorators.any (fun d => getDecoratorName d == some name)

/-- python.py `_convert_method` parameter loop (lines 225-234): enumerate
`args.args` and skip index 0 when `skip_first` holds. -/
def convertMethodParams (skipFirst : Bool) (args : List PyArg) : List MethodParameter :=
  (args.enum.filterMap (fun p =>
    if skipFirst && p.1 == 0 then none
    else some { name := p.2.arg, typeDescriptor := convertAnnot p.2.annot }))

/-- python.py `_convert_method` (lines 175-244): modifiers from the naming
convention, decorator-driven flags, property methods skipped, `self`/`cls`
skipped unless the method is static, constructors renamed. -/
def convertMethod (name : String) (decorators : List PyExpr) (args : List PyArg)
    (returns : Option PyExpr) (className : String) : Option MethodModel :=
  let baseModifiers :=
    if strStartsWith name "__" && strEndsWith name "__" then ["public"]
    else pyNameModifiers name
  let isStatic := hasDecorator decorators "staticmethod"
  let isClassMethod := hasDecorator decorators "classmethod"
  let isAbstract := hasDecorator decorators "abstractmethod"
  let isProperty := hasDecorator decorators "property"
  let modifiers := baseModifiers ++
    (if isStatic || isClassMethod then ["static"] else []) ++
    (if isAbstract then ["abstract"] else [])
  if isProperty then none
  else
    let returnType := convertAnnot returns
    let skipFirst := !isStatic
    let parameters := convertMethodParams skipFirst args
    let isConstructor := name == "__init__"
    some { name := if isConstructor then className else name
           returnType := returnType
           parameters := parameters
           modifiers := modifiers
           isConstructor := isConstructor }

/-! ## csharp.py and cpp.py: text scanning

Source text is a list of characters.  Character classes follow the ASCII
reading of the source's regular expressions: `\w` is alphanumeric or
underscore, `\s` is whitespace. -/

/-- Python regex `\w` (ASCII). -/
def isWordChar (c : Char) : Bool := c.isAlphanum || c == '_'

/-- Python regex `\s` and `str.strip` whitespace (ASCII). -/
def isSpaceChar (c : Char) : Bool := c.isWhitespace

/-- Python `str.strip()`. -/
def trim (l : List Char) : List Char :=
  ((l.dropWhile isSpaceChar).reverse.dropWhile isSpaceChar).reverse

/-- Python `str.split(",")`. -/
def splitOnComma : List Char → List (List Char)
  | [] => [[]]
  | c :: rest =>
    if c = ',' then [] :: splitOnComma rest
    else
      match splitOnComma rest with
      | g :: gs => (c :: g) :: gs
      | [] => [[c]]

/-- Maximal prefix satisfying a character class, plus the remainder
(the greedy semantics of `p+`/`p*` runs). -/
def takeRunWhile (p : Char → Bool) : List Char → List Char × List Char
  | [] => ([], [])
  | c :: rest =>
    if p c then
      let (w, r) := takeRunWhile p rest
      (c :: w, r)
    else ([], c :: rest)

/-- Length of the maximal whitespace prefix. -/
def spaceRun : List Char → Nat
  | [] => 0
  | c :: rest => if isSpaceChar c then spaceRun rest + 1 else 0

/-- Match a literal character sequence at the head, returning the
remainder. -/
def matchLiteral : List Char → List Char → Option (List Char)
  | [], s => some s
  | _ :: _, [] => none
  | p :: ps, c :: rest => if c = p then matchLiteral ps rest else none

/-- csharp.py `_extract_body` (lines 144-157): scan from `start` for the
first opening brace and return the text strictly between it and its
matching closing brace (cpp.py `_extract_body` produces the same slice via
`_find_matching_brace`). -/
def extractBodyGo : List Char → Bool → Int → List Char → List Char
  | [], _, _, _ => []
  | c :: rest, started, count, acc =>
    if c = '{' then
      extractBodyGo rest true (count + 1) (if started then acc ++ [c] else acc)
    else if c = '}' then
      if count - 1 = 0 then acc
      else extractBodyGo rest started (count - 1) (if started then acc ++ [c] else acc)
    else
      extractBodyGo rest started count (if started then acc ++ [c] else acc)

/-- csharp.py `_extract_body` entry point. -/
def extractBody (content : List Char) (start : Nat) : List Char :=
  extractBodyGo (content.drop start) false 0 []

/-- csharp.py lines 159-180 and cpp.py lines 219-240 (the two functions are
textually identical `_extract_class_level_content` implementations): keep
braces and characters at brace depth zero, drop everything nested. -/
def extractClassLevelContentGo (depth : Int) : List Char → List Char
  | [] => []
  | c :: rest =>
    if c = '{' then c :: extractClassLevelContentGo (depth + 1) rest
    else if c = '}' then c :: extractClassLevelContentGo (depth - 1) rest
    else if depth = 0 then c :: extractClassLevelContentGo depth rest
    else extractClassLevelContentGo depth rest

/-- `_extract_class_level_content` entry point (depth starts at zero). -/
def extractClassLevelContent (body : List Char) : List Char :=
  extractClassLevelContentGo 0 body

/-! Auxiliary notions used to state properties of the depth filter. -/

/-- Brace contribution of one character to the running depth. -/
def braceDelta (c : Char) : Int :=
  if c = '{' then 1 else if c = '}' then -1 else 0

/-- Running brace depth after a character sequence, starting from `d`. -/
def depthAfter (d : Int) (l : List Char) : Int :=
  d + (l.map braceDelta).sum

/-- Whether every prefix of `l` keeps the running depth (starting at `d`)
nonnegative: the defining property of a well-nested brace region. -/
def prefixesNonneg (d : Int) : List Char → Bool
  | [] => true
  | c :: rest =>
    let d2 := d + braceDelta c
    decide (0 ≤ d2) && prefixesNonneg d2 rest

/-- Whether a character is one of the two braces. -/
def isBraceChar (c : Char) : Bool := c == '{' || c == '}'

/-! ### ENUM_VALUE_PATTERN

csharp.py and cpp.py share the regex `(\w+)\s*(?:=\s*[^,]+)?[,}]` for enum
constants.  The scanner below implements Python `finditer` semantics.
Backtracking over the `\w+` and leading `\s*` runs is provably useless for
this pattern (a shortened run leaves a word respectively space character
next, which fails every later component), so only the maximal runs are
tried; the optional `=` group keeps its full backtracking. -/

/-- Try `[^,]+` of length `k`, `k-1`, ..., 1 followed by `[,}]`; `k` starts
at the maximal non-comma run so every tried prefix is comma-free.  Returns
the total consumed length. -/
def tryNonComma (s : List Char) : Nat → Option Nat
  | 0 => none
  | k + 1 =>
    match (s.drop (k + 1)).head? with
    | some c =>
      if c = ',' ∨ c = '}' then some (k + 2) else tryNonComma s k
    | none => tryNonComma s k

/-- Try the tail of the optional group after its `=`: `\s*` of length `j`
downwards, then `[^,]+[,}]`. -/
def tryEqTail (s : List Char) : Nat → Option Nat
  | 0 =>
    let m := (takeRunWhile (fun c => !(c = ',')) s).1.length
    tryNonComma s m
  | j + 1 =>
    let rest := s.drop (j + 1)
    let m := (takeRunWhile (fun c => !(c = ',')) rest).1.length
    match tryNonComma rest m with
    | some n => some (j + 1 + n)
    | none => tryEqTail s j

/-- Try `\s*(?:=\s*[^,]+)?[,}]` with the leading `\s*` of length `k`
downwards (the optional group is tried before its absence, as regex `?` is
greedy). -/
def tryEnumTail (s : List Char) : Nat → Option Nat
  | 0 =>
    (match s with
     | '=' :: after => (tryEqTail after (spaceRun after)).map (fun n => 1 + n)
     | _ => none).orElse (fun _ =>
      match s.head? with
      | some c => if c = ',' ∨ c = '}' then some 1 else none
      | none => none)
  | k + 1 =>
    let rest := s.drop (k + 1)
    let present :=
      match rest with
      | '=' :: after => (tryEqTail after (spaceRun after)).map (fun n => k + 2 + n)
      | _ => none
    match present with
    | some n => some n
    | none =>
      match rest.head? with
      | some c => if c = ',' ∨ c = '}' then some (k + 2) else tryEnumTail s k
      | none => tryEnumTail s k

/-- Anchored match of `ENUM_VALUE_PATTERN` at the head of `s`: the captured
word and the total number of consumed characters. -/
def enumValueMatchAt (s : List Char) : Option (List Char × Nat) :=
  let (w, rest) := takeRunWhile isWordChar s
  if w.isEmpty then none
  else (tryEnumTail rest (spaceRun rest)).map (fun n => (w, w.length + n))

/-- `finditer` over `ENUM_VALUE_PATTERN`: slide to the leftmost match,
emit its group, continue after the match.  A successful match consumes at
least one character, so `fuel = length` iterations always suffice. -/
def enumScanGo : Nat → List Char → List String
  | 0, _ => []
  | _ + 1, [] => []
  | fuel + 1, c :: rest =>
    match enumValueMatchAt (c :: rest) with
    | some (w, consumed) => String.mk w :: enumScanGo fuel ((c :: rest).drop consumed)
    | none => enumScanGo fuel rest

/-- csharp.py `_parse_enum_constants` (lines 342-346) and the identical
cpp.py function (lines 430-434). -/
def parseEnumConstants (body : List Char) : List String :=
  enumScanGo body.length body

/-! ### Namespace patterns -/

/-- Anchored match of cpp.py `NAMESPACE_PATTERN`
(`namespace\s+(\w+)\s*\{`): the namespace name and the consumed length.
Shortening the greedy `\s+`, `\w+` or `\s*` runs always leaves a character
that fails the next component, so only maximal runs are tried. -/
def matchCppNamespaceAt (s : List Char) : Option (String × Nat) :=
  match matchLiteral "namespace".toList s with
  | none => none
  | some r1 =>
    let sp1 := spaceRun r1
    if sp1 = 0 then none
    else
      let (w, r3) := takeRunWhile isWordChar (r1.drop sp1)
      if w.isEmpty then none
      else
        let sp2 := spaceRun r3
        match (r3.drop sp2).head? with
        | some c =>
          if c = '{' then some (String.mk w, 9 + sp1 + w.length + sp2 + 1) else none
        | none => none

/-- cpp.py `_find_matching_brace` inner loop (lines 198-210), carrying the
absolute index. -/
def findMatchingBraceGo : List Char → Nat → Int → Option Nat
  | [], _, _ => none
  | c :: rest, idx, depth =>
    if c = '{' then findMatchingBraceGo rest (idx + 1) (depth + 1)
    else if c = '}' then
      if depth - 1 = 0 then some idx else findMatchingBraceGo rest (idx + 1) (depth - 1)
    else findMatchingBraceGo rest (idx + 1) depth

/-- cpp.py `_find_matching_brace`: `none` models the source's -1. -/
def findMatchingBrace (content : List Char) (start : Nat) : Option Nat :=
  match (content.drop start).head? with
  | some '{' => findMatchingBraceGo (content.drop start) start 0
  | _ => none

/-- cpp.py `_find_namespaces` (lines 175-185): `finditer` over the
namespace pattern; each match contributes (name, start, end of the matched
brace) when the brace matches.  One fuel unit per scanned position. -/
def findNamespacesGo (content : List Char) : Nat → List Char → Nat → List (String × Nat × Nat)
  | 0, _, _ => []
  | _ + 1, [], _ => []
  | fuel + 1, c :: rest, pos =>
    match matchCppNamespaceAt (c :: rest) with
    | some (name, consumed) =>
      (match findMatchingBrace content (pos + consumed - 1) with
       | some endIdx => [(name, pos, endIdx)]
       | none => []) ++
      findNamespacesGo content fuel ((c :: rest).drop consumed) (pos + consumed)
    | none => findNamespacesGo content fuel rest (pos + 1)

/-- cpp.py `_find_namespaces` entry point. -/
def findNamespaces (content : List Char) : List (String × Nat × Nat) :=
  findNamespacesGo content (content.length + 1) content 0

/-- cpp.py `_get_namespace_at_position` (lines 187-196): fold over the
namespace list, dot-appending the name of every interval containing the
position. -/
def getNamespaceAtPosition (namespaces : List (String × Nat × Nat)) (pos : Nat) : Option String :=
  namespaces.foldl
    (fun result t =>
      if t.2.1 ≤ pos ∧ pos ≤ t.2.2 then
        match result with
        | some r => some (r ++ "." ++ t.1)
        | none => some t.1
      else result)
    none

/-- Anchored match of csharp.py `NAMESPACE_PATTERN`
(`namespace\s+([\w.]+)`): the captured dotted name.  As above, only the
maximal greedy runs can succeed. -/
def matchCsNamespaceAt (s : List Char) : Option String :=
  match matchLiteral "namespace".toList s with
  | none => none
  | some r1 =>
    let sp := spaceRun r1
    if sp = 0 then none
    else
      let (w, _) := takeRunWhile (fun c => isWordChar c || c == '.') (r1.drop sp)
      if w.isEmpty then none else some (String.mk w)

/-- csharp.py `_parse_content` lines 78-80: `NAMESPACE_PATTERN.search`, the
first namespace declaration anywhere in the file; the result is recorded
as the package of every type parsed from the file, independent of the
type's position. -/
def csharpFileNamespace : List Char → Option String
  | [] => none
  | c :: rest =>
    match matchCsNamespaceAt (c :: rest) with
    | some name => some name
    | none => csharpFileNamespace rest

/-- Modelled from the spec (section 4.1, namespace qualification): the
dotted path of one namespace interval is the dot-join of the names of the
intervals containing it, outermost first (under properly nested input the
containing intervals are exactly its ancestors plus itself). -/
def specNamespacePath (ns : List (String × Nat × Nat)) (t : String × Nat × Nat) : String :=
  String.intercalate "."
    ((ns.filter (fun u => decide (u.2.1 ≤ t.2.1) && decide (t.2.2 ≤ u.2.2))).map (fun u => u.1))

/-- Modelled from the spec (section 4.1): the recorded namespace of a
declaration is the dotted path of the innermost interval containing its
offset; with intervals listed in increasing start order, the innermost
containing interval is the last containing one. -/
def specInnermostNamespaceAt (ns : List (String × Nat × Nat)) (pos : Nat) : Option String :=
  match (ns.filter (fun t => decide (t.2.1 ≤ pos) && decide (pos ≤ t.2.2))).getLast? with
  | none => none
  | some inn => some (specNamespacePath ns inn)

/-! ### cpp.py: type references and base lists -/

/-- cpp.py `_parse_type_reference` line 248: strip trailing whitespace,
`*` and `&` (`re.sub(r'[\s*&]+$', '', ...)`). -/
def trimTrailingPtrRef (l : List Char) : List Char :=
  (l.reverse.dropWhile (fun c => isSpaceChar c || c == '*' || c == '&')).reverse

/-- One word run of the `\bconst\b` substitution: a run equal to `const`
is removed, any other run is kept. -/
def emitNonConstRun (w : List Char) : List Char :=
  if w = ['c', 'o', 'n', 's', 't'] then [] else w

/-- cpp.py `_parse_type_reference` line 249, `re.sub(r'\bconst\b', '', ...)`:
over ASCII word characters the regex removes exactly the maximal word runs
equal to `const` (the word boundaries are the edges of the run), so the
substitution is implemented by accumulating the current word run. -/
def removeConstAux (curr : List Char) : List Char → List Char
  | [] => emitNonConstRun curr
  | c :: rest =>
    if isWordChar c then removeConstAux (curr ++ [c]) rest
    else emitNonConstRun curr ++ c :: removeConstAux [] rest

/-- `re.sub(r'\bconst\b', '', ...)` entry point. -/
def removeConstWords (l : List Char) : List Char := removeConstAux [] l

/-- Python `"::" in s`. -/
def containsColonColon : List Char → Bool
  | [] => false
  | [_] => false
  | c1 :: c2 :: rest => (c1 == ':' && c2 == ':') || containsColonColon (c2 :: rest)

/-- Python `s.split("::")` (non-overlapping, left to right). -/
def splitColonColon : List Char → List (List Char)
  | [] => [[]]
  | ':' :: ':' :: rest => [] :: splitColonColon rest
  | c :: rest =>
    match splitColonColon rest with
    | g :: gs => (c :: g) :: gs
    | [] => [[c]]

/-- Index of the last `'>'` in the list, if any. -/
def lastIndexOfGt (l : List Char) : Option Nat :=
  match l.reverse.findIdx? (fun c => c == '>') with
  | some j => some (l.length - 1 - j)
  | none => none

/-- Anchored match of cpp.py's template regex `([\w:]+)<(.+)>` (line 252):
the name part and the greedy argument text up to the last `'>'`.  A
shortened `[\w:]+` run is followed by another word-or-colon character,
never by `<`, so only the maximal run is tried. -/
def cppTemplateMatch (s : List Char) : Option (List Char × List Char) :=
  let (w, rest) := takeRunWhile (fun c => isWordChar c || c == ':') s
  if w.isEmpty then none
  else
    match rest with
    | '<' :: r2 =>
      match lastIndexOfGt r2 with
      | some i => if 1 ≤ i then some (w, r2.take i) else none
      | none => none
    | _ => none

/-- cpp.py `_split_template_args` (lines 280-298) and the textually
identical csharp.py `_split_generic_args` (lines 219-237): split on
commas at angle-bracket depth zero, stripping each piece and dropping a
final all-whitespace piece. -/
def splitTopLevelArgsGo (depth : Int) (current : List Char) : List Char → List (List Char)
  | [] => if (trim current).isEmpty then [] else [trim current]
  | c :: rest =>
    if c = '<' then splitTopLevelArgsGo (depth + 1) (current ++ [c]) rest
    else if c = '>' then splitTopLevelArgsGo (depth - 1) (current ++ [c]) rest
    else if c = ',' then
      if depth = 0 then trim current :: splitTopLevelArgsGo depth [] rest
      else splitTopLevelArgsGo depth (current ++ [c]) rest
    else splitTopLevelArgsGo depth (current ++ [c]) rest

/-- `_split_template_args` / `_split_generic_args` entry point. -/
def splitTopLevelArgs (l : List Char) : List (List Char) :=
  splitTopLevelArgsGo 0 [] l

/-- cpp.py `_parse_type_reference` (lines 242-278).  The recursion into
template arguments is bounded by a fuel parameter; every recursive call
works on a strict substring, so `fuel = length` never runs out (an
exhausted fuel yields an empty argument list). -/
def cppParseTypeRefGo : Nat → List Char → Option TypeDescriptor
  | fuel, s =>
    let t := trim s
    if t.isEmpty then none
    else
      let clean := trim (removeConstWords (trimTrailingPtrRef t))
      match cppTemplateMatch clean with
      | some (namePart, argsStr) =>
        let args :=
          match fuel with
          | 0 => []
          | fuel' + 1 =>
            (splitTopLevelArgs argsStr).filterMap (fun a => cppParseTypeRefGo fuel' (trim a))
        if containsColonColon namePart then
          let parts := splitColonColon namePart
          some { name := String.mk (parts.getLastD [])
                 qualifier := some (String.intercalate "." (parts.dropLast.map String.mk))
                 arguments := args
                 dimensions := 0 }
        else
          some { name := String.mk namePart, qualifier := none
                 arguments := args, dimensions := 0 }
      | none =>
        if containsColonColon clean then
          let parts := splitColonColon clean
          some { name := String.mk (parts.getLastD [])
                 qualifier := some (String.intercalate "." (parts.dropLast.map String.mk))
                 arguments := [], dimensions := 0 }
        else some (simpleTD (String.mk clean))

/-- cpp.py `_parse_type_reference` entry point. -/
def cppParseTypeRef (s : List Char) : Option TypeDescriptor :=
  cppParseTypeRefGo s.length s

/-- cpp.py `_parse_content` line 114: strip one leading access specifier
followed by whitespace (`re.sub(r'^(public|private|protected)\s+', '', ...)`;
the greedy `\s+` removes the whole whitespace run). -/
def stripKw (kw : List Char) (l : List Char) : Option (List Char) :=
  match matchLiteral kw l with
  | some rest =>
    match rest.head? with
    | some c => if isSpaceChar c then some (rest.dropWhile isSpaceChar) else none
    | none => none
  | none => none

/-- The access-specifier strip applied to one base entry. -/
def stripAccessSpec (l : List Char) : List Char :=
  match stripKw "public".toList l with
  | some r => r
  | none =>
    match stripKw "private".toList l with
    | some r => r
    | none =>
      match stripKw "protected".toList l with
      | some r => r
      | none => l

/-- cpp.py `_parse_content` lines 110-118: the base-type list after `:` is
split on every comma, each entry stripped, its access specifier removed,
and the nonempty remainders parsed into descriptors collected in
`extends`. -/
def cppParseBases (s : List Char) : List TypeDescriptor :=
  if s.isEmpty then []
  else
    (splitOnComma s).filterMap (fun b =>
      let b1 := stripAccessSpec (trim b)
      if b1.isEmpty then none else cppParseTypeRef b1)

/-! ### csharp.py: type references and base lists -/

/-- Python `s.count("[]")`: non-overlapping occurrences. -/
def countSquarePairs : List Char → Nat
  | '[' :: ']' :: rest => 1 + countSquarePairs rest
  | _ :: rest => countSquarePairs rest
  | [] => 0

/-- Anchored match of csharp.py's generic regex
`([\w.]+)<(.+)>(\[\])?` (line 188): name part, greedy argument text up to
the last `'>'`, and whether `[]` follows it. -/
def csGenericMatch (s : List Char) : Option (List Char × List Char × Nat) :=
  let (w, rest) := takeRunWhile (fun c => isWordChar c || c == '.') s
  if w.isEmpty then none
  else
    match rest with
    | '<' :: r2 =>
      match lastIndexOfGt r2 with
      | some i =>
        if 1 ≤ i then
          let dims := if (r2.drop (i + 1)).take 2 = ['[', ']'] then 1 else 0
          some (w, r2.take i, dims)
        else none
      | none => none
    | _ => none

/-- Anchored match of csharp.py's array regex `([\w.?]+)(\[\])+`
(line 202); the source then counts `[]` pairs over the whole string. -/
def csArrayMatch (s : List Char) : Option (List Char) :=
  let (w, rest) := takeRunWhile (fun c => isWordChar c || c == '.' || c == '?') s
  if w.isEmpty then none
  else
    match rest with
    | '[' :: ']' :: _ => some w
    | _ => none

/-- Python `s.split(".")`. -/
def splitOnDot : List Char → List (List Char)
  | [] => [[]]
  | c :: rest =>
    if c = '.' then [] :: splitOnDot rest
    else
      match splitOnDot rest with
      | g :: gs => (c :: g) :: gs
      | [] => [[c]]

/-- Qualifier/name split used by all csharp.py branches:
`name=parts[-1]`, `qualifier='.'.join(parts[:-1])` when dotted. -/
def csQualified (namePart : List Char) (args : List TypeDescriptor) (dims : Nat) :
    TypeDescriptor :=
  let parts := splitOnDot namePart
  { name := String.mk (parts.getLastD [])
    qualifier :=
      if 2 ≤ parts.length then
        some (String.intercalate "." (parts.dropLast.map String.mk))
      else none
    arguments := args
    dimensions := dims }

/-- csharp.py `_parse_type_reference` (lines 182-217), fuel-bounded like
the C++ one: generic match, then array match, then the plain dotted name
with `?` removed. -/
def csParseTypeRefGo : Nat → List Char → Option TypeDescriptor
  | fuel, s =>
    let t := trim s
    if t.isEmpty then none
    else
      match csGenericMatch t with
      | some (namePart, argsStr, dims) =>
        let args :=
          match fuel with
          | 0 => []
          | fuel' + 1 =>
            (splitTopLevelArgs argsStr).filterMap (fun a => csParseTypeRefGo fuel' (trim a))
        some (csQualified namePart args dims)
      | none =>
        match csArrayMatch t with
        | some namePart => some (csQualified namePart [] (countSquarePairs t))
        | none =>
          some (csQualified (t.filter (fun c => !(c = '?'))) [] 0)

/-- csharp.py `_parse_type_reference` entry point. -/
def csParseTypeRef (s : List Char) : Option TypeDescriptor :=
  csParseTypeRefGo s.length s

/-- csharp.py `_parse_content` line 100: the interface heuristic
(`kind == "interface" or base.startswith("I") and len(base) > 1 and
base[1].isupper()`). -/
def csLooksInterface (kind : String) (base : List Char) : Bool :=
  kind == "interface" ||
    (match base with
     | 'I' :: c :: _ => c.isUpper
     | _ => false)

/-- csharp.py `_parse_content` lines 93-106: split the base list on every
comma and classify each parsed entry; an interface-looking entry goes to
`implements`, otherwise the first entry goes to `extends` and the rest to
`implements`. -/
def csharpClassifyBasesGo (kind : String) :
    List (List Char) → List TypeDescriptor → List TypeDescriptor →
    List TypeDescriptor × List TypeDescriptor
  | [], ext, impl => (ext, impl)
  | b :: rest, ext, impl =>
    let t := trim b
    if t.isEmpty then csharpClassifyBasesGo kind rest ext impl
    else
      match csParseTypeRef t with
      | none => csharpClassifyBasesGo kind rest ext impl
      | some d =>
        if csLooksInterface kind t then csharpClassifyBasesGo kind rest ext (impl ++ [d])
        else if ext.isEmpty then csharpClassifyBasesGo kind rest (ext ++ [d]) impl
        else csharpClassifyBasesGo kind rest ext (impl ++ [d])

/-- csharp.py base-list processing entry point. -/
def csharpParseBases (kind : String) (s : List Char) :
    List TypeDescriptor × List TypeDescriptor :=
  if s.isEmpty then ([], [])
  else csharpClassifyBasesGo kind (splitOnComma s) [] []

/-- The `self.<attr>` target names of one statement: the provenance a
field extracted from `__init__` must have. -/
def stmtSelfAttrNames : PyStmt → List String
  | .assign targets _ => targets.filterMap selfAttrName
  | .annAssign target _ _ => (selfAttrName target).toList
  | _ => []

/-! ## Concrete instances used by the example theorems -/

/-- A minimal `TypeModel`. -/
def plainType (name : String) (pkg : Option String) (path : String) : TypeModel :=
  { name := name, package := pkg, kind := "class", modifiers := [], fields := [],
    methods := [], extendsList := [], implements := [], sourcePath := path,
    enumConstants := [] }

/-- A minimal `JavaTypeModel`. -/
def plainJavaType (name : String) (pkg : Option String) (ctx : ImportContext) : JavaTypeModel :=
  { name := name, package := pkg, kind := "class", modifiers := [], fields := [],
    methods := [], extendsList := [], implements := [], imports := ctx,
    sourcePath := "", enumConstants := [] }

/-- Two Python-front-end type models sharing the full name `m.A`, from
distinct source files. -/
def dupTypeA : TypeModel := plainType "A" (some "m") "a.py"

/-- The later duplicate of `dupTypeA`. -/
def dupTypeB : TypeModel := plainType "A" (some "m") "b.py"

/-- A run containing two types named `Target` and a type importing one of
them explicitly. -/
def aliasOwner : JavaTypeModel :=
  plainJavaType "Owner" (some "pkg.c") { directImports := [("Target", "pkg.a.Target")] }

/-- The types table of the alias scenario. -/
def aliasTable : List (String × JavaTypeModel) :=
  [("pkg.a.Target", plainJavaType "Target" (some "pkg.a") {}),
   ("pkg.b.Target", plainJavaType "Target" (some "pkg.b") {}),
   ("pkg.c.Owner", aliasOwner)]

/-- A table with one uniquely named type, two sharing a simple name, and a
referencing type in an unrelated package. -/
def fallbackRef : JavaTypeModel := plainJavaType "Refr" (some "pkg.q") {}

/-- Types table for the unique-fallback and ambiguity scenarios. -/
def fallbackTable : List (String × JavaTypeModel) :=
  [("pkg.z.Unique", plainJavaType "Unique" (some "pkg.z") {}),
   ("pkg.a.Dup", plainJavaType "Dup" (some "pkg.a") {}),
   ("pkg.b.Dup", plainJavaType "Dup" (some "pkg.b") {}),
   ("pkg.q.Refr", fallbackRef)]

/-- A C#-style file declaring two classes inside two different brace
namespaces (braces written as characters of the embedded text). -/
def twoNamespaceContent : List Char :=
  "namespace A \x7b class X \x7b \x7d \x7d namespace B \x7b class Y \x7b \x7d \x7d".toList

/-- A Java enum model with three constants. -/
def enumColorModel : JavaTypeModel :=
  { name := "Color", package := none, kind := "enum", modifiers := [], fields := [],
    methods := [], extendsList := [], implements := [], imports := {},
    sourcePath := "", enumConstants := ["R", "G", "B"] }

/-- An `__init__` definition assigning one `self` attribute and one local
variable. -/
def pyInitDef : PyStmt :=
  .functionDef "__init__" [] [⟨"self", none⟩]
     [.assign [.attribute (.name "self") "count"] (.constant .int),
      .assign [.name "localvar"] (.constant .int)] none false

/-- A Python class body containing only `pyInitDef`. -/
def pyInitBody : List PyStmt := [pyInitDef]

/-- The field `extract_init_fields` produces for `self.count = ...`. -/
def countField : FieldModel :=
  { name := "count", typeDescriptor := some (simpleTD "int"),
    modifiers := ["public"], isInstantiated := false }

/-- Offset of the `class Y` declaration inside `twoNamespaceContent`. -/
def classYOffset : Nat := 42

/-! # Theorems -/

/-! ## Association-list lemmas -/

theorem lookup_append {α : Type} (t1 t2 : List (String × α)) (k : String) :
    (t1 ++ t2).lookup k =
      match t1.lookup k with
      | some v => some v
      | none => t2.lookup k := by
  induction t1 with
  | nil => simp
  | cons p rest ih =>
    obtain ⟨k0, v0⟩ := p
    by_cases h : k == k0 <;> simp [List.lookup, h, ih]

theorem containsKey_eq_isSome_lookup {α : Type} (t : List (String × α)) (k : String) :
    containsKey t k = (t.lookup k).isSome := by
  induction t with
  | nil => simp [containsKey]
  | cons p rest ih =>
    obtain ⟨k0, v0⟩ := p
    by_cases h : k0 = k
    · subst h
      simp [containsKey, List.lookup]
    · have h1 : (k0 == k) = false := by simp [h]
      have h2 : (k == k0) = false := by simp [Ne.symm h]
      simp [containsKey, List.lookup, h1, h2]
      simpa [containsKey] using ih

theorem dictSet_lookup {α : Type} (t : List (String × α)) (k k2 : String) (v : α) :
    (dictSet t k v).lookup k2 = if k2 == k then some v else t.lookup k2 := by
  induction t with
  | nil =>
    cases hb : k2 == k <;> simp [dictSet, List.lookup, hb]
  | cons p rest ih =>
    obtain ⟨k0, v0⟩ := p
    cases hk : k0 == k
    · cases hb : k2 == k0
      · simp [dictSet, hk, List.lookup, hb, ih]
      · have hkk : (k2 == k) = false := by
          have e1 : k2 = k0 := eq_of_beq hb
          have e2 : ¬(k0 = k) := by
            intro h
            simp [h] at hk
          subst e1
          simpa using e2
        simp [dictSet, hk, List.lookup, hb, hkk]
    · have e0 : k0 = k := eq_of_beq hk
      subst e0
      cases hb : k2 == k0 <;> simp [dictSet, hk, List.lookup, hb]

theorem dictSet_keys_mem {α : Type} (t : List (String × α)) (k k2 : String) (v : α) :
    k2 ∈ (dictSet t k v).map Prod.fst ↔ (k2 ∈ t.map Prod.fst ∨ k2 = k) := by
  induction t with
  | nil => simp [dictSet]
  | cons p rest ih =>
    obtain ⟨k0, v0⟩ := p
    by_cases h : k0 = k
    · subst h
      simp [dictSet]
      tauto
    · have h1 : (k0 == k) = false := by simp [h]
      simp [dictSet, h1, ih]
      tauto

theorem dictSet_keys_nodup {α : Type} (t : List (String × α)) (k : String) (v : α)
    (h : (t.map Prod.fst).Nodup) : ((dictSet t k v).map Prod.fst).Nodup := by
  induction t with
  | nil => simp [dictSet]
  | cons p rest ih =>
    obtain ⟨k0, v0⟩ := p
    simp at h
    by_cases hk : k0 = k
    · subst hk
      have h1 : (k0 == k0) = true := by simp
      simp [dictSet, h1]
      exact ⟨fun x hx => h.1 x hx, h.2⟩
    · have h1 : (k0 == k) = false := by simp [hk]
      simp [dictSet, h1]
      constructor
      · intro x hx
        have hmm : k0 ∈ (dictSet rest k v).map Prod.fst :=
          List.mem_map_of_mem Prod.fst hx
        rcases (dictSet_keys_mem rest k k0 v).1 hmm with hin | heq
        · rcases List.mem_map.1 hin with ⟨⟨ka, va⟩, hpa, hfa⟩
          exact h.1 va (by simpa [← hfa] using hpa)
        · exact hk heq
      · exact ih h.2

theorem find?_append_none {α : Type} (t1 t2 : List α) (p : α → Bool)
    (h : t1.find? p = none) : (t1 ++ t2).find? p = t2.find? p := by
  induction t1 with
  | nil => simp
  | cons a rest ih =>
    cases hp : p a
    · simp only [List.find?, hp] at h
      simp [List.find?, hp, ih h]
    · simp [List.find?, hp] at h

theorem find?_append_some {α : Type} (t1 t2 : List α) (p : α → Bool) (v : α)
    (h : t1.find? p = some v) : (t1 ++ t2).find? p = some v := by
  induction t1 with
  | nil => simp at h
  | cons a rest ih =>
    cases hp : p a
    · simp only [List.find?, hp] at h
      simp [List.find?, hp, ih h]
    · simp only [List.find?, hp] at h
      simp [List.find?, hp, h]

/-! ## C1: duplicate handling in each front-end's parse merge -/

theorem javaMerge_fold_lookup_some (ms : List JavaTypeModel)
    (acc : List (String × JavaTypeModel) × List String) (k : String) (v : JavaTypeModel)
    (h : acc.1.lookup k = some v) :
    (ms.foldl javaMergeStep acc).1.lookup k = some v := by
  induction ms generalizing acc with
  | nil => simpa using h
  | cons m rest ih =>
    simp only [List.foldl_cons]
    apply ih
    cases hc : containsKey acc.1 m.fullName
    · simp only [javaMergeStep, hc, Bool.false_eq_true, if_false]
      rw [lookup_append, h]
    · simp only [javaMergeStep, hc, if_true]
      cases acc.1.lookup m.fullName <;> simpa using h

theorem javaMerge_fold_lookup_none (ms : List JavaTypeModel)
    (acc : List (String × JavaTypeModel) × List String) (k : String)
    (h : acc.1.lookup k = none) :
    (ms.foldl javaMergeStep acc).1.lookup k = ms.find? (fun m => m.fullName == k) := by
  induction ms generalizing acc with
  | nil => simpa using h
  | cons m rest ih =>
    simp only [List.foldl_cons]
    cases hc : containsKey acc.1 m.fullName
    · cases hb : m.fullName == k
      · have hb2 : (k == m.fullName) = false := by
          cases hb3 : k == m.fullName
          · rfl
          · have := eq_of_beq hb3
            simp [this] at hb
        have hstep : (javaMergeStep acc m).1.lookup k = none := by
          simp only [javaMergeStep, hc, Bool.false_eq_true, if_false]
          rw [lookup_append, h]
          simp [List.lookup, hb2]
        rw [ih _ hstep]
        simp [List.find?, hb]
      · have hb2 : (k == m.fullName) = true := by
          have := eq_of_beq hb
          simp [this]
        have hstep : (javaMergeStep acc m).1.lookup k = some m := by
          simp only [javaMergeStep, hc, Bool.false_eq_true, if_false]
          rw [lookup_append, h]
          simp [List.lookup, hb2]
        rw [javaMerge_fold_lookup_some rest _ k m hstep]
        simp [List.find?, hb]
    · have hbf : (m.fullName == k) = false := by
        cases hb : m.fullName == k
        · rfl
        · have := eq_of_beq hb
          rw [containsKey_eq_isSome_lookup, this, h] at hc
          simp at hc
      have hstep : (javaMergeStep acc m).1.lookup k = none := by
        have : (javaMergeStep acc m).1 = acc.1 := by
          simp only [javaMergeStep, hc, if_true]
          cases acc.1.lookup m.fullName <;> rfl
        rw [this, h]
      rw [ih _ hstep]
      simp [List.find?, hbf]

theorem javaMerge_fold_count (ms : List JavaTypeModel)
    (acc : List (String × JavaTypeModel) × List String) :
    (ms.foldl javaMergeStep acc).2.length + (ms.foldl javaMergeStep acc).1.length =
      acc.2.length + acc.1.length + ms.length := by
  induction ms generalizing acc with
  | nil => simp
  | cons m rest ih =>
    simp only [List.foldl_cons, ih]
    cases hc : containsKey acc.1 m.fullName
    · simp [javaMergeStep, hc]
      omega
    · simp only [javaMergeStep, hc]
      cases hl : acc.1.lookup m.fullName <;> simp <;> omega

theorem keys_append_nodup {α : Type} (t : List (String × α)) (k : String) (v : α)
    (hn : (t.map Prod.fst).Nodup) (hc : containsKey t k = false) :
    ((t ++ [(k, v)]).map Prod.fst).Nodup := by
  simp only [List.map_append, List.map_cons, List.map_nil]
  rw [List.nodup_append]
  refine ⟨hn, by simp, ?_⟩
  intro a ha hb
  simp at hb
  rcases List.mem_map.1 ha with ⟨⟨ka, va⟩, hpa, hfa⟩
  have hck : containsKey t k = true := by
    simp only [containsKey]
    rw [List.any_eq_true]
    refine ⟨(ka, va), hpa, ?_⟩
    have hka : ka = k := by
      have h1 : ka = a := hfa
      rw [h1, hb]
    simp [hka]
  rw [hck] at hc
  exact Bool.noConfusion hc

theorem javaMerge_fold_nodup (ms : List JavaTypeModel)
    (acc : List (String × JavaTypeModel) × List String)
    (hn : (acc.1.map Prod.fst).Nodup) :
    ((ms.foldl javaMergeStep acc).1.map Prod.fst).Nodup := by
  induction ms generalizing acc with
  | nil => exact hn
  | cons m rest ih =>
    simp only [List.foldl_cons]
    apply ih
    cases hc : containsKey acc.1 m.fullName
    · simp only [javaMergeStep, hc, Bool.false_eq_true, if_false]
      exact keys_append_nodup acc.1 m.fullName m hn hc
    · simp only [javaMergeStep, hc, if_true]
      cases acc.1.lookup m.fullName <;> simpa using hn

theorem cppMerge_fold_lookup_none (ms : List TypeModel)
    (acc : List (String × TypeModel)) (k : String)
    (h : acc.lookup k = none) :
    (ms.foldl (fun t m => if containsKey t m.fullName then t else t ++ [(m.fullName, m)]) acc).lookup k =
      ms.find? (fun m => m.fullName == k) := by
  induction ms generalizing acc with
  | nil => simpa using h
  | cons m rest ih =>
    simp only [List.foldl_cons]
    cases hc : containsKey acc m.fullName
    · simp only [hc, Bool.false_eq_true, if_false]
      cases hb : m.fullName == k
      · have hb2 : (k == m.fullName) = false := by
          cases hb3 : k == m.fullName
          · rfl
          · have := eq_of_beq hb3
            simp [this] at hb
        have hstep : (acc ++ [(m.fullName, m)]).lookup k = none := by
          rw [lookup_append, h]
          simp [List.lookup, hb2]
        rw [ih _ hstep]
        simp [List.find?, hb]
      · have hb2 : (k == m.fullName) = true := by
          have := eq_of_beq hb
          simp [this]
        have hstep : (acc ++ [(m.fullName, m)]).lookup k = some m := by
          rw [lookup_append, h]
          simp [List.lookup, hb2]
        have hsome : ∀ (ms2 : List TypeModel) (acc2 : List (String × TypeModel)) (v : TypeModel),
            acc2.lookup k = some v →
            (ms2.foldl (fun t m2 => if containsKey t m2.fullName then t else t ++ [(m2.fullName, m2)]) acc2).lookup k = some v := by
          intro ms2
          induction ms2 with
          | nil => intro acc2 v hv; simpa using hv
          | cons m2 rest2 ih2 =>
            intro acc2 v hv
            simp only [List.foldl_cons]
            apply ih2
            cases hc2 : containsKey acc2 m2.fullName
            · simp only [hc2, Bool.false_eq_true, if_false]
              rw [lookup_append, hv]
            · simpa [hc2] using hv
        rw [hsome rest _ m hstep]
        simp [List.find?, hb]
    · have hbf : (m.fullName == k) = false := by
        cases hb : m.fullName == k
        · rfl
        · have := eq_of_beq hb
          rw [containsKey_eq_isSome_lookup, this, h] at hc
          simp at hc
      simp only [hc, if_true]
      rw [ih _ h]
      simp [List.find?, hbf]

theorem cppMerge_fold_nodup (ms : List TypeModel)
    (acc : List (String × TypeModel))
    (hn : (acc.map Prod.fst).Nodup) :
    ((ms.foldl (fun t m => if containsKey t m.fullName then t else t ++ [(m.fullName, m)]) acc).map Prod.fst).Nodup := by
  induction ms generalizing acc with
  | nil => exact hn
  | cons m rest ih =>
    simp only [List.foldl_cons]
    apply ih
    cases hc : containsKey acc m.fullName
    · simp only [hc, Bool.false_eq_true, if_false]
      exact keys_append_nodup acc m.fullName m hn hc
    · simpa [hc] using hn

theorem pyMerge_fold_lookup_none (ms : List TypeModel)
    (acc : List (String × TypeModel)) (k : String)
    (h : ms.reverse.find? (fun m => m.fullName == k) = none) :
    (ms.foldl (fun t m => dictSet t m.fullName m) acc).lookup k = acc.lookup k := by
  induction ms generalizing acc with
  | nil => simp
  | cons m rest ih =>
    simp only [List.reverse_cons, List.find?_eq_none, List.mem_append] at h
    have hrest : rest.reverse.find? (fun m => m.fullName == k) = none := by
      rw [List.find?_eq_none]
      intro x hx
      exact h x (Or.inl hx)
    have hm : (m.fullName == k) = false := by
      have := h m (Or.inr (by simp))
      simpa using this
    simp only [List.foldl_cons]
    rw [ih _ hrest, dictSet_lookup]
    have hb : (k == m.fullName) = false := by
      cases hb3 : k == m.fullName
      · rfl
      · have := eq_of_beq hb3
        simp [this] at hm
    simp [hb]

theorem pyMerge_fold_lookup_some (ms : List TypeModel)
    (acc : List (String × TypeModel)) (k : String) (v : TypeModel)
    (h : ms.reverse.find? (fun m => m.fullName == k) = some v) :
    (ms.foldl (fun t m => dictSet t m.fullName m) acc).lookup k = some v := by
  induction ms generalizing acc with
  | nil => simp at h
  | cons m rest ih =>
    simp only [List.foldl_cons]
    cases hr : rest.reverse.find? (fun m2 => m2.fullName == k)
    · rw [List.reverse_cons, find?_append_none _ _ _ hr] at h
      simp only [List.find?] at h
      cases hm : m.fullName == k
      · simp [hm] at h
      · simp only [hm] at h
        have hv : m = v := by simpa using h
        subst hv
        rw [pyMerge_fold_lookup_none rest _ k hr, dictSet_lookup]
        have hb : (k == m.fullName) = true := by
          have := eq_of_beq hm
          simp [this]
        simp [hb]
    · rw [List.reverse_cons, find?_append_some _ _ _ _ hr] at h
      cases h
      exact ih _ hr

theorem pyMerge_fold_nodup (ms : List TypeModel)
    (acc : List (String × TypeModel))
    (hn : (acc.map Prod.fst).Nodup) :
    ((ms.foldl (fun t m => dictSet t m.fullName m) acc).map Prod.fst).Nodup := by
  induction ms generalizing acc with
  | nil => exact hn
  | cons m rest ih =>
    simp only [List.foldl_cons]
    exact ih _ (dictSet_keys_nodup acc m.fullName m hn)

/-- C1: the claim's first-occurrence-wins-with-one-warning contract holds
only for the Java front-end.  Amended behaviour, per front-end: the Java
parse merge keeps the first occurrence of a full name and appends exactly
one warning per extra duplicate (warnings plus stored types account for
every converted model); the C++ merge keeps the first occurrence but
appends no warning; the Python and C# merges keep the *last* occurrence
(at the first occurrence's position) and append no warning.  In all four,
the stored full names are unique. -/
theorem C1_duplicate_merge_amended :
    (∀ (ms : List JavaTypeModel) (k : String),
      (javaParseTypesOnly ms).1.lookup k = ms.find? (fun m => m.fullName == k)) ∧
    (∀ ms : List JavaTypeModel,
      (javaParseTypesOnly ms).2.length + (javaParseTypesOnly ms).1.length = ms.length) ∧
    (∀ ms : List JavaTypeModel, ((javaParseTypesOnly ms).1.map Prod.fst).Nodup) ∧
    (∀ (ms : List TypeModel) (k : String),
      (cppParseTypesOnly ms).1.lookup k = ms.find? (fun m => m.fullName == k)) ∧
    (∀ ms : List TypeModel, (cppParseTypesOnly ms).2 = [] ∧
      ((cppParseTypesOnly ms).1.map Prod.fst).Nodup) ∧
    (∀ (ms : List TypeModel) (k : String),
      (pythonParseTypesOnly ms).1.lookup k = ms.reverse.find? (fun m => m.fullName == k)) ∧
    (∀ ms : List TypeModel, (pythonParseTypesOnly ms).2 = [] ∧
      ((pythonParseTypesOnly ms).1.map Prod.fst).Nodup) ∧
    (∀ (ms : List TypeModel) (k : String),
      (csharpParseTypesOnly ms).1.lookup k = ms.reverse.find? (fun m => m.fullName == k)) ∧
    (∀ ms : List TypeModel, (csharpParseTypesOnly ms).2 = [] ∧
      ((csharpParseTypesOnly ms).1.map Prod.fst).Nodup) := by
  have hpy : ∀ (ms : List TypeModel) (k : String),
      (ms.foldl (fun t m => dictSet t m.fullName m) []).lookup k =
        ms.reverse.find? (fun m => m.fullName == k) := by
    intro ms k
    cases hf : ms.reverse.find? (fun m => m.fullName == k)
    · rw [pyMerge_fold_lookup_none ms [] k hf]
      rfl
    · exact pyMerge_fold_lookup_some ms [] k _ hf
  refine ⟨?_, ?_, ?_, ?_, ?_, ?_, ?_, ?_, ?_⟩
  · intro ms k
    exact javaMerge_fold_lookup_none ms ([], []) k rfl
  · intro ms
    have := javaMerge_fold_count ms ([], [])
    simpa [javaParseTypesOnly] using this
  · intro ms
    exact javaMerge_fold_nodup ms ([], []) (by simp)
  · intro ms k
    exact cppMerge_fold_lookup_none ms [] k rfl
  · intro ms
    exact ⟨rfl, cppMerge_fold_nodup ms [] (by simp)⟩
  · intro ms k
    exact hpy ms k
  · intro ms
    exact ⟨rfl, pyMerge_fold_nodup ms [] (by simp)⟩
  · intro ms k
    exact hpy ms k
  · intro ms
    exact ⟨rfl, pyMerge_fold_nodup ms [] (by simp)⟩

/-- C1 counterexample: two Python-front-end models share full name `m.A`;
the merge stores the later one (which differs from the first) and records
no warning, and the C++ merge stores the first one but also records no
warning — contradicting the claim that every front-end keeps the earlier
model and appends exactly one duplicate warning. -/
theorem C1_counterexample :
    (pythonParseTypesOnly [dupTypeA, dupTypeB]).1.lookup "m.A" = some dupTypeB ∧
    dupTypeB.sourcePath ≠ dupTypeA.sourcePath ∧
    (pythonParseTypesOnly [dupTypeA, dupTypeB]).2 = [] ∧
    (cppParseTypesOnly [dupTypeA, dupTypeB]).1.lookup "m.A" = some dupTypeA ∧
    (cppParseTypesOnly [dupTypeA, dupTypeB]).2 = [] := by
  refine ⟨rfl, by decide, rfl, rfl, rfl⟩

/-! ## C2, C3: the type resolver -/

theorem findWildcard_none (table : List (String × JavaTypeModel)) (ws : List String)
    (simple : String)
    (h : ∀ w ∈ ws, containsKey table (w ++ "." ++ simple) = false) :
    findWildcard table ws simple = none := by
  induction ws with
  | nil => rfl
  | cons w rest ih =>
    have hw := h w (by simp)
    simp only [findWildcard, hw, Bool.false_eq_true, if_false]
    exact ih (fun w2 hw2 => h w2 (by simp [hw2]))

/-- C2 amended: the explicit-import-alias rule of
`JavaTypeResolver.resolve` wins over everything that follows it — in
particular over the unique-simple-name fallback and over ambiguity (the
table may contain any number of other types sharing the simple name) —
provided the descriptor does not carry an explicit qualifier that itself
names a known type, since the qualifier rule precedes the import rule. -/
theorem C2_import_alias_amended (table : List (String × JavaTypeModel))
    (d : TypeDescriptor) (ctx : JavaTypeModel) (f : String)
    (hq : ∀ g, d.directFullName = some g → containsKey table g = false)
    (hi : ctx.imports.directImports.lookup d.name = some f)
    (hf : containsKey table f = true) :
    resolve table (some d) ctx = some f := by
  cases hd : d.directFullName
  · simp [resolve, hd, hi, hf]
  · simp [resolve, hd, hq _ hd, hi, hf]

/-- C2 counterexample: the import context of `aliasOwner` maps the simple
name `Target` to the known full name `pkg.a.Target`, yet resolving a
descriptor for `Target` carrying the explicit qualifier `pkg.b` returns
`pkg.b.Target`, not the imported name — the claim's unconditional
"whenever" fails on qualified descriptors. -/
theorem C2_counterexample :
    aliasOwner.imports.directImports.lookup "Target" = some "pkg.a.Target" ∧
    containsKey aliasTable "pkg.a.Target" = true ∧
    resolve aliasTable
      (some { name := "Target", qualifier := some "pkg.b", arguments := [], dimensions := 0 })
      aliasOwner = some "pkg.b.Target" ∧
    ("pkg.b.Target" : String) ≠ "pkg.a.Target" :=
  ⟨rfl, rfl, rfl, by decide⟩

/-- C2 witness: a bare `Target` reference from `aliasOwner` resolves to the
imported `pkg.a.Target` even though `pkg.b.Target` also exists. -/
theorem C2_witness :
    resolve aliasTable (some (simpleTD "Target")) aliasOwner = some "pkg.a.Target" :=
  C2_import_alias_amended aliasTable (simpleTD "Target") aliasOwner "pkg.a.Target"
    (fun _ hg => nomatch hg) rfl rfl

/-- C3: with no usable qualifier, no import alias, no wildcard candidate
and no same-package candidate, `JavaTypeResolver.resolve` returns the
unique full name bearing the simple name when exactly one exists, and
returns nothing when two or more types share the simple name. -/
theorem C3_unique_fallback_and_ambiguity (table : List (String × JavaTypeModel))
    (d : TypeDescriptor) (ctx : JavaTypeModel)
    (hq : d.qualifier = none)
    (hi : ctx.imports.directImports.lookup d.name = none)
    (hw : ∀ w ∈ ctx.imports.wildcardImports, containsKey table (w ++ "." ++ d.name) = false)
    (hp : ∀ p, ctx.package = some p → containsKey table (p ++ "." ++ d.name) = false) :
    (∀ f, simpleIndex table d.name = [f] → resolve table (some d) ctx = some f) ∧
    (2 ≤ (simpleIndex table d.name).length → resolve table (some d) ctx = none) := by
  have hd : d.directFullName = none := by
    simp [TypeDescriptor.directFullName, hq]
  have hwild : findWildcard table ctx.imports.wildcardImports d.name = none :=
    findWildcard_none table _ _ hw
  constructor
  · intro f hf
    cases hpkg : ctx.package
    · simp [resolve, hd, hi, hwild, hpkg, hf]
    · simp [resolve, hd, hi, hwild, hpkg, hp _ hpkg, hf]
  · intro hlen
    have hne : ((simpleIndex table d.name).length == 1) = false := by
      have : (simpleIndex table d.name).length ≠ 1 := by omega
      simpa using this
    cases hpkg : ctx.package
    · simp [resolve, hd, hi, hwild, hpkg, hne]
    · simp [resolve, hd, hi, hwild, hpkg, hp _ hpkg, hne]

/-- C3 witness: in `fallbackTable`, a bare `Unique` reference from the
unrelated-package type `fallbackRef` resolves to `pkg.z.Unique`, while a
bare `Dup` reference (two candidates) resolves to nothing. -/
theorem C3_witness :
    resolve fallbackTable (some (simpleTD "Unique")) fallbackRef = some "pkg.z.Unique" ∧
    resolve fallbackTable (some (simpleTD "Dup")) fallbackRef = none := by
  constructor
  · exact (C3_unique_fallback_and_ambiguity fallbackTable (simpleTD "Unique") fallbackRef
      rfl rfl (fun w hw => by simp [fallbackRef, plainJavaType] at hw)
      (fun p hp => by cases hp; rfl)).1 "pkg.z.Unique" (by decide)
  · exact (C3_unique_fallback_and_ambiguity fallbackTable (simpleTD "Dup") fallbackRef
      rfl rfl (fun w hw => by simp [fallbackRef, plainJavaType] at hw)
      (fun p hp => by cases hp; rfl)).2 (by decide)

/-! ## C7: connection deduplication in the model builder -/

theorem ensure_fold_spec (reqs : List ConnKey) (conns : List ConnKey) (cnt : Nat)
    (hn : conns.Nodup) :
    (reqs.foldl (fun acc key =>
        let r := ensureConnection acc.1 key
        (r.1, acc.2 + r.2)) (conns, cnt)).1.Nodup ∧
    (∀ k2, k2 ∈ (reqs.foldl (fun acc key =>
        let r := ensureConnection acc.1 key
        (r.1, acc.2 + r.2)) (conns, cnt)).1 ↔ (k2 ∈ conns ∨ k2 ∈ reqs)) := by
  induction reqs generalizing conns cnt with
  | nil =>
    refine ⟨hn, ?_⟩
    intro k2
    simp
  | cons key rest ih =>
    by_cases hk : key ∈ conns
    · have hstep : ensureConnection conns key = (conns, 0) := by
        simp [ensureConnection, hk]
      have := ih conns (cnt + 0) hn
      simp only [List.foldl_cons, hstep]
      refine ⟨this.1, ?_⟩
      intro k2
      rw [this.2 k2]
      constructor
      · intro h2
        rcases h2 with h2 | h2
        · exact Or.inl h2
        · exact Or.inr (by simp [h2])
      · intro h2
        rcases h2 with h2 | h2
        · exact Or.inl h2
        · rcases List.mem_cons.1 h2 with h3 | h3
          · subst h3
            exact Or.inl hk
          · exact Or.inr h3
    · have hstep : ensureConnection conns key = (conns ++ [key], 1) := by
        simp [ensureConnection, hk]
      have hn2 : (conns ++ [key]).Nodup := by
        rw [List.nodup_append]
        exact ⟨hn, by simp, by
          intro a ha hb
          simp at hb
          subst hb
          exact hk ha⟩
      have := ih (conns ++ [key]) (cnt + 1) hn2
      simp only [List.foldl_cons, hstep]
      refine ⟨this.1, ?_⟩
      intro k2
      rw [this.2 k2]
      constructor
      · intro h2
        rcases h2 with h2 | h2
        · rcases List.mem_append.1 h2 with h3 | h3
          · exact Or.inl h3
          · have hk2 : k2 = key := by simpa using h3
            exact Or.inr (by simp [hk2])
        · exact Or.inr (List.mem_cons_of_mem key h2)
      · intro h2
        rcases h2 with h2 | h2
        · exact Or.inl (List.mem_append.2 (Or.inl h2))
        · rcases List.mem_cons.1 h2 with h3 | h3
          · exact Or.inl (List.mem_append.2 (Or.inr (by simp [h3])))
          · exact Or.inr h3

/-- C7: during one model-builder run, the created connection keys are
pairwise distinct — at most one connection per (connection kind, source,
target) triple — and a key is created exactly when the builder loops
attempt it, so a generalisation and an association between the same two
elements (distinct kinds, hence distinct keys) both survive while a
repeated field type or repeated generic-argument target adds nothing. -/
theorem C7_connection_dedup :
    (∀ table : List (String × JavaTypeModel),
      (createConnections table).1.Nodup ∧
      (∀ k, k ∈ (createConnections table).1 ↔ k ∈ connectionRequests table)) ∧
    (∀ s t : String,
      ((GENERALISATION_CONNECTION, s, t) : ConnKey) ≠ (ASSOCIATION_CONNECTION, s, t)) := by
  constructor
  · intro table
    have := ensure_fold_spec (connectionRequests table) [] 0 (by simp)
    refine ⟨this.1, ?_⟩
    intro k
    rw [show createConnections table = ((connectionRequests table).foldl (fun acc key =>
        let r := ensureConnection acc.1 key
        (r.1, acc.2 + r.2)) ([], 0)) from rfl]
    rw [this.2 k]
    simp
  · intro s t h
    have h1 : GENERALISATION_CONNECTION = ASSOCIATION_CONNECTION := congrArg Prod.fst h
    exact absurd h1 (by decide)

/-! ## C10: the Python front-end drops the first positional parameter -/

theorem filterMap_enumFrom_some (args : List PyArg) (n : Nat) :
    (args.enumFrom n).filterMap (fun p =>
      some ({ name := p.2.arg, typeDescriptor := convertAnnot p.2.annot } : MethodParameter)) =
    args.map (fun a => { name := a.arg, typeDescriptor := convertAnnot a.annot }) := by
  induction args generalizing n with
  | nil => rfl
  | cons a rest ih => simp [List.enumFrom, List.filterMap, ih]

theorem filterMap_enumFrom_pos (args : List PyArg) (n : Nat) :
    (args.enumFrom (n + 1)).filterMap (fun p =>
      if p.1 = 0 then none
      else some ({ name := p.2.arg, typeDescriptor := convertAnnot p.2.annot } : MethodParameter)) =
    args.map (fun a => { name := a.arg, typeDescriptor := convertAnnot a.annot }) := by
  induction args generalizing n with
  | nil => rfl
  | cons a rest ih =>
    simp only [List.enumFrom, List.filterMap, Nat.succ_ne_zero, if_false]
    simp [ih]

theorem convertMethodParams_false_eq (args : List PyArg) :
    convertMethodParams false args =
      args.map (fun a => { name := a.arg, typeDescriptor := convertAnnot a.annot }) := by
  have h := filterMap_enumFrom_some args 0
  simp only [convertMethodParams, List.enum]
  simpa using h

theorem convertMethodParams_true_eq (args : List PyArg) :
    convertMethodParams true args =
      (args.drop 1).map (fun a => { name := a.arg, typeDescriptor := convertAnnot a.annot }) := by
  cases args with
  | nil => rfl
  | cons a rest =>
    have h := filterMap_enumFrom_pos rest 0
    simp only [convertMethodParams, List.enum, List.enumFrom, List.filterMap,
      List.drop_succ_cons, List.drop_zero]
    simpa using h

/-- C10: a parsed Python method without a `staticmethod` decorator —
including `classmethod` methods — omits its first positional parameter,
whatever that parameter's name or annotation, while a `staticmethod`
method keeps all declared parameters. -/
theorem C10_first_param_skip (name : String) (decorators : List PyExpr) (args : List PyArg)
    (returns : Option PyExpr) (className : String) (m : MethodModel)
    (h : convertMethod name decorators args returns className = some m) :
    (hasDecorator decorators "staticmethod" = false →
      m.parameters =
        (args.drop 1).map (fun a => { name := a.arg, typeDescriptor := convertAnnot a.annot })) ∧
    (hasDecorator decorators "staticmethod" = true →
      m.parameters =
        args.map (fun a => { name := a.arg, typeDescriptor := convertAnnot a.annot })) := by
  cases hprop : hasDecorator decorators "property"
  · cases hs : hasDecorator decorators "staticmethod"
    · simp only [convertMethod, hprop, hs, Bool.false_eq_true, if_false, Bool.not_false] at h
      cases h
      exact ⟨fun _ => convertMethodParams_true_eq args, fun h2 => Bool.noConfusion h2⟩
    · simp only [convertMethod, hprop, hs, Bool.false_eq_true, if_false, Bool.not_true] at h
      cases h
      exact ⟨fun h2 => Bool.noConfusion h2, fun _ => convertMethodParams_false_eq args⟩
  · simp [convertMethod, hprop] at h

/-- C10 witness: a concrete `classmethod` loses its `cls` parameter while a
concrete `staticmethod` keeps both of its parameters. -/
theorem C10_witness :
    (convertMethod "area" [.name "classmethod"] [⟨"cls", none⟩, ⟨"x", none⟩] none "Shape").map
        (fun m => m.parameters.map (fun p => p.name)) = some ["x"] ∧
    (convertMethod "mk" [.name "staticmethod"] [⟨"a", none⟩, ⟨"b", none⟩] none "Shape").map
        (fun m => m.parameters.map (fun p => p.name)) = some ["a", "b"] := by
  constructor
  · obtain ⟨m, hm⟩ : ∃ m, convertMethod "area" [.name "classmethod"]
        [⟨"cls", none⟩, ⟨"x", none⟩] none "Shape" = some m := ⟨_, rfl⟩
    have h := (C10_first_param_skip "area" [.name "classmethod"]
      [⟨"cls", none⟩, ⟨"x", none⟩] none "Shape" m hm).1 (by decide)
    rw [hm]
    simp only [Option.map, h]
    rfl
  · obtain ⟨m, hm⟩ : ∃ m, convertMethod "mk" [.name "staticmethod"]
        [⟨"a", none⟩, ⟨"b", none⟩] none "Shape" = some m := ⟨_, rfl⟩
    have h := (C10_first_param_skip "mk" [.name "staticmethod"]
      [⟨"a", none⟩, ⟨"b", none⟩] none "Shape" m hm).2 (by decide)
    rw [hm]
    simp only [Option.map, h]
    rfl

/-! ## C4: no locals or parameters leak into fields -/

theorem depthAfter_nil (d : Int) : depthAfter d [] = d := by
  simp [depthAfter]

theorem depthAfter_cons (d : Int) (c : Char) (l : List Char) :
    depthAfter d (c :: l) = depthAfter (d + braceDelta c) l := by
  simp [depthAfter]
  ring

theorem extractGo_append (x y : List Char) (d : Int) :
    extractClassLevelContentGo d (x ++ y) =
      extractClassLevelContentGo d x ++ extractClassLevelContentGo (depthAfter d x) y := by
  induction x generalizing d with
  | nil => simp [extractClassLevelContentGo, depthAfter_nil]
  | cons c rest ih =>
    rw [depthAfter_cons]
    by_cases h1 : c = '{'
    · subst h1
      have hb : braceDelta '{' = 1 := by simp [braceDelta]
      rw [hb]
      simp only [List.cons_append, extractClassLevelContentGo, reduceIte, List.append_eq]
      rw [ih]
    · by_cases h2 : c = '}'
      · subst h2
        have hb : braceDelta '}' = -1 := by simp [braceDelta]
        rw [hb]
        simp only [List.cons_append, extractClassLevelContentGo, h1, reduceIte, List.append_eq]
        rw [ih]
        have he : d + -1 = d - 1 := by ring
        rw [he]
      · have hb : braceDelta c = 0 := by simp [braceDelta, h1, h2]
        rw [hb, add_zero]
        by_cases h3 : d = 0
        · simp only [List.cons_append, extractClassLevelContentGo, h1, h2, h3, reduceIte,
            if_true, List.append_eq]
          rw [ih]
        · simp only [List.cons_append, extractClassLevelContentGo, h1, h2, h3, reduceIte,
            if_false, List.append_eq]
          rw [ih]

theorem extractGo_nested (m : List Char) (rest : List Char) (d : Int)
    (hd : 1 ≤ d) (hm : prefixesNonneg (d - 1) m = true) :
    extractClassLevelContentGo d (m ++ rest) =
      m.filter isBraceChar ++ extractClassLevelContentGo (depthAfter d m) rest := by
  induction m generalizing d with
  | nil => simp [depthAfter_nil]
  | cons c m2 ih =>
    simp only [prefixesNonneg, Bool.and_eq_true, decide_eq_true_eq] at hm
    obtain ⟨h1, h2⟩ := hm
    rw [depthAfter_cons]
    by_cases hc1 : c = '{'
    · subst hc1
      have hb : braceDelta '{' = 1 := by simp [braceDelta]
      rw [hb] at h1 h2 ⊢
      have ih2 := ih (d + 1) (by omega) (by
        have he : d + 1 - 1 = d - 1 + 1 := by ring
        rw [he]
        exact h2)
      simp only [List.cons_append, extractClassLevelContentGo, reduceIte, List.append_eq]
      rw [ih2]
      have hf : List.filter isBraceChar ('{' :: m2) = '{' :: List.filter isBraceChar m2 := by
        simp [List.filter, isBraceChar]
      rw [hf]
      simp
    · by_cases hc2 : c = '}'
      · subst hc2
        have hb : braceDelta '}' = -1 := by simp [braceDelta]
        rw [hb] at h1 h2 ⊢
        have ih2 := ih (d - 1) (by omega) (by
          have he : d - 1 - 1 = d - 1 + -1 := by ring
          rw [he]
          exact h2)
        simp only [List.cons_append, extractClassLevelContentGo, hc1, reduceIte, List.append_eq]
        have he2 : d + -1 = d - 1 := by ring
        rw [he2, ih2]
        have hf : List.filter isBraceChar ('}' :: m2) = '}' :: List.filter isBraceChar m2 := by
          simp [List.filter, isBraceChar]
        rw [hf]
        simp
      · have hb : braceDelta c = 0 := by simp [braceDelta, hc1, hc2]
        rw [hb, add_zero] at h1 h2 ⊢
        have ih2 := ih d hd h2
        have hdne : ¬(d = 0) := by omega
        simp only [List.cons_append, extractClassLevelContentGo, hc1, hc2, hdne, reduceIte,
          if_false, List.append_eq]
        rw [ih2]
        have hbc : isBraceChar c = false := by
          simp [isBraceChar, hc1, hc2]
        have hf : List.filter isBraceChar (c :: m2) = List.filter isBraceChar m2 := by
          simp [List.filter, hbc]
        rw [hf]

/-- C4: scope-correct member extraction.  First conjunct (C# and C++
front-ends): the text handed to field/method extraction keeps, of any
well-nested brace region opened at class-body depth zero — a method or
accessor body — only its braces; every inner character, hence every local
variable or parameter declaration, is dropped before member patterns run.
Second and third conjuncts (Python front-end): every field extracted from
`__init__` originates from a `self.<attr>` assignment target found by the
AST walk, and an assignment all of whose targets are bare names (local
variables) contributes no field at all. -/
theorem C4_no_locals_in_fields :
    (∀ (a m b : List Char), depthAfter 0 a = 0 → prefixesNonneg 0 m = true →
      depthAfter 0 m = 0 →
      extractClassLevelContent (a ++ '{' :: (m ++ '}' :: b)) =
        extractClassLevelContent a ++
          '{' :: (m.filter isBraceChar ++ '}' :: extractClassLevelContent b)) ∧
    (∀ (classBody : List PyStmt) (f : FieldModel), f ∈ extractInitFields classBody →
      ∃ init stmt, classBody.find? isInitDef = some init ∧
        stmt ∈ walkStmts [init] ∧ f.name ∈ stmtSelfAttrNames stmt) ∧
    (∀ (targets : List PyExpr) (value : PyExpr),
      (∀ t ∈ targets, selfAttrName t = none) →
      stmtInitFields (.assign targets value) = []) := by
  refine ⟨?_, ?_, ?_⟩
  · intro a m b ha hm hm1
    simp only [extractClassLevelContent]
    rw [extractGo_append a _ 0, ha]
    have h1 : extractClassLevelContentGo 0 ('{' :: (m ++ '}' :: b)) =
        '{' :: extractClassLevelContentGo 1 (m ++ '}' :: b) := by
      simp [extractClassLevelContentGo]
    rw [h1]
    rw [extractGo_nested m ('}' :: b) 1 (by omega) (by
      have h0 : (1 : Int) - 1 = 0 := by ring
      rw [h0]
      exact hm)]
    have h2 : depthAfter 1 m = 1 := by
      have h3 : depthAfter 1 m = 1 + depthAfter 0 m := by
        simp [depthAfter]
      rw [h3, hm1]
      ring
    rw [h2]
    have h4 : extractClassLevelContentGo 1 ('}' :: b) =
        '}' :: extractClassLevelContentGo 0 b := by
      have hne : ¬(('}' : Char) = '{') := by decide
      simp [extractClassLevelContentGo, hne]
    rw [h4]
  · intro classBody f hf
    simp only [extractInitFields] at hf
    cases hfind : classBody.find? isInitDef
    · rw [hfind] at hf
      simp at hf
    · rw [hfind] at hf
      rcases List.mem_flatMap.1 hf with ⟨stmt, hstmt, hfmem⟩
      refine ⟨_, stmt, rfl, hstmt, ?_⟩
      cases stmt with
      | assign targets value =>
        simp only [stmtInitFields] at hfmem
        rcases List.mem_filterMap.1 hfmem with ⟨t, ht, hsome⟩
        cases hsa : selfAttrName t with
        | none => rw [hsa] at hsome; exact Option.noConfusion hsome
        | some attr =>
          rw [hsa] at hsome
          have : f.name = attr := by
            cases hsome
            rfl
          simp only [stmtSelfAttrNames, this]
          exact List.mem_filterMap.2 ⟨t, ht, hsa⟩
      | annAssign target annot value =>
        simp only [stmtInitFields] at hfmem
        cases hsa : selfAttrName target with
        | none => rw [hsa] at hfmem; simp at hfmem
        | some attr =>
          rw [hsa] at hfmem
          have : f.name = attr := by
            rcases List.mem_singleton.1 hfmem with rfl
            rfl
          simp [stmtSelfAttrNames, hsa, this]
      | functionDef n d2 a2 b2 r2 ia => simp [stmtInitFields] at hfmem
      | classDef n b2 => simp [stmtInitFields] at hfmem
      | compound ch => simp [stmtInitFields] at hfmem
      | exprStmt e => simp [stmtInitFields] at hfmem
  · intro targets value h
    simp only [stmtInitFields]
    rw [List.filterMap_eq_nil_iff]
    intro t ht
    rw [h t ht]

/-- C4 witness: a method body containing `int local;` contributes only its
braces to the class-level text (the local declaration text is gone), a
bare-name assignment contributes no `__init__` field, and the one field
extracted from `pyInitBody` originates from the `self.count` target. -/
theorem C4_witness :
    (extractClassLevelContent
        ("void f() ".toList ++ '{' :: (" int local; ".toList ++ '}' :: " int field;".toList)) =
      extractClassLevelContent "void f() ".toList ++
        '{' :: ((" int local; ".toList.filter isBraceChar) ++
          '}' :: extractClassLevelContent " int field;".toList)) ∧
    stmtInitFields (.assign [PyExpr.name "localvar"] (.constant .int)) = [] ∧
    (∃ init stmt, pyInitBody.find? isInitDef = some init ∧
      stmt ∈ walkStmts [init] ∧ countField.name ∈ stmtSelfAttrNames stmt) := by
  refine ⟨?_, ?_, ?_⟩
  · exact C4_no_locals_in_fields.1 "void f() ".toList " int local; ".toList
      " int field;".toList (by decide) (by decide) (by decide)
  · exact C4_no_locals_in_fields.2.2 [PyExpr.name "localvar"] (.constant .int)
      (fun t ht => by
        rw [List.mem_singleton] at ht
        subst ht
        rfl)
  · refine C4_no_locals_in_fields.2.1 pyInitBody countField ?_
    have hlist : extractInitFields pyInitBody = [countField] := by
      rw [extractInitFields]
      rw [show pyInitBody.find? isInitDef = some pyInitDef from rfl]
      show (walkStmts [pyInitDef]).flatMap stmtInitFields = [countField]
      rw [show walkStmts [pyInitDef] = pyInitDef ::
        walkStmts ([] ++ stmtChildren pyInitDef) from by rw [walkStmts]]
      rw [show ([] ++ stmtChildren pyInitDef) =
        [PyStmt.assign [.attribute (.name "self") "count"] (.constant .int),
         PyStmt.assign [.name "localvar"] (.constant .int)] from rfl]
      simp only [walkStmts.eq_def, stmtChildren, List.append_nil, List.nil_append]
      simp [pyInitDef, stmtInitFields, selfAttrName, countField, pyNameModifiers,
        inferTypeFromValue, isCallExpr, simpleTD]
      decide
    rw [hlist]
    exact List.mem_singleton_self _

/-! ## C8: grid layout -/

theorem foldl_max_init (l : List Nat) (f : Nat → Nat) (a : Nat) :
    a ≤ l.foldl (fun acc i => max acc (f i)) a := by
  induction l generalizing a with
  | nil => simp
  | cons x rest ih =>
    simp only [List.foldl_cons]
    exact le_trans (le_max_left a (f x)) (ih (max a (f x)))

theorem mem_le_foldl_max (l : List Nat) (f : Nat → Nat) (a x : Nat) :
    x ∈ l → f x ≤ l.foldl (fun acc i => max acc (f i)) a := by
  induction l generalizing a with
  | nil =>
    intro hx
    simp at hx
  | cons y rest ih =>
    intro hx
    simp only [List.foldl_cons]
    rcases List.mem_cons.1 hx with h | h
    · subst h
      exact le_trans (le_max_right a (f x)) (foldl_max_init rest f (max a (f x)))
    · exact ih (max a (f y)) h

theorem widthAt_le_columnWidth (vs : List (Nat × Nat)) (cols i : Nat) (hi : i < vs.length) :
    widthAt vs i ≤ columnWidth vs cols (i % cols) := by
  apply mem_le_foldl_max
  simp [List.mem_filter, List.mem_range, hi]

theorem heightAt_le_rowHeight (vs : List (Nat × Nat)) (cols i : Nat) (hi : i < vs.length) :
    heightAt vs i ≤ rowHeight vs cols (i / cols) := by
  apply mem_le_foldl_max
  simp [List.mem_filter, List.mem_range, hi]

theorem layoutColumns_five : layoutColumns 5 = 2 := by
  have hs : Nat.sqrt 5 = 2 := (Nat.eq_sqrt.2 (by constructor <;> omega)).symm
  simp [layoutColumns, hs]

theorem columnOffset_add (vs : List (Nat × Nat)) (cols c k : Nat) :
    columnOffset vs cols c ≤ columnOffset vs cols (c + k) := by
  induction k with
  | zero => simp
  | succ k ih =>
    have : columnOffset vs cols (c + (k + 1)) =
        columnOffset vs cols (c + k) + columnWidth vs cols (c + k) + ELEMENT_SPACING_X := rfl
    rw [this]
    omega

theorem columnOffset_mono (vs : List (Nat × Nat)) (cols c1 c2 : Nat) (h : c1 ≤ c2) :
    columnOffset vs cols c1 ≤ columnOffset vs cols c2 := by
  have := columnOffset_add vs cols c1 (c2 - c1)
  rwa [Nat.add_sub_cancel' h] at this

theorem rowOffset_add (vs : List (Nat × Nat)) (cols r k : Nat) :
    rowOffset vs cols r ≤ rowOffset vs cols (r + k) := by
  induction k with
  | zero => simp
  | succ k ih =>
    have : rowOffset vs cols (r + (k + 1)) =
        rowOffset vs cols (r + k) + rowHeight vs cols (r + k) + ELEMENT_SPACING_Y := rfl
    rw [this]
    omega

theorem rowOffset_mono (vs : List (Nat × Nat)) (cols r1 r2 : Nat) (h : r1 ≤ r2) :
    rowOffset vs cols r1 ≤ rowOffset vs cols r2 := by
  have := rowOffset_add vs cols r1 (r2 - r1)
  rwa [Nat.add_sub_cancel' h] at this

theorem nodeX_gap (vs : List (Nat × Nat)) (cols a b : Nat)
    (ha : a < vs.length) (hab : a % cols < b % cols) :
    nodeX vs cols a + widthAt vs a < nodeX vs cols b := by
  have h1 := widthAt_le_columnWidth vs cols a ha
  have h2 : columnOffset vs cols (a % cols) + columnWidth vs cols (a % cols) +
      ELEMENT_SPACING_X = columnOffset vs cols (a % cols + 1) := rfl
  have h3 := columnOffset_mono vs cols (a % cols + 1) (b % cols) hab
  simp only [nodeX]
  have hsp : 0 < ELEMENT_SPACING_X := by decide
  omega

theorem nodeY_gap (vs : List (Nat × Nat)) (cols a b : Nat)
    (ha : a < vs.length) (hab : a / cols < b / cols) :
    nodeY vs cols a + heightAt vs a < nodeY vs cols b := by
  have h1 := heightAt_le_rowHeight vs cols a ha
  have h2 : rowOffset vs cols (a / cols) + rowHeight vs cols (a / cols) +
      ELEMENT_SPACING_Y = rowOffset vs cols (a / cols + 1) := rfl
  have h3 := rowOffset_mono vs cols (a / cols + 1) (b / cols) hab
  simp only [nodeY]
  have hsp : 0 < ELEMENT_SPACING_Y := by decide
  omega

/-- C8: the grid layout of `_layout_classes` for `N ≥ 1` placed visuals:
the column count is `max 1 (floor (sqrt N))` and the row count is the
least number of rows covering all visuals at that column count; each
visual's final width and height dominate both the fixed base cell size and
its measured minimal size; positions are origin 40 plus accumulated
column/row offsets; and no two distinct visuals' rectangles overlap (they
are separated by a strictly positive gap on at least one axis). -/
theorem C8_layout_grid (vs : List (Nat × Nat)) (hne : vs ≠ []) :
    (layoutColumns vs.length = max 1 (Nat.sqrt vs.length) ∧
     1 ≤ layoutColumns vs.length ∧
     vs.length ≤ layoutColumns vs.length * layoutRows vs.length (layoutColumns vs.length) ∧
     layoutColumns vs.length * (layoutRows vs.length (layoutColumns vs.length) - 1) <
       vs.length) ∧
    (layoutClasses vs = (List.range vs.length).map (fun i =>
      (nodeX vs (layoutColumns vs.length) i, nodeY vs (layoutColumns vs.length) i,
       widthAt vs i, heightAt vs i))) ∧
    (∀ i v, vs.get? i = some v →
      BASE_ELEMENT_WIDTH ≤ widthAt vs i ∧ v.1 ≤ widthAt vs i ∧
      BASE_ELEMENT_HEIGHT ≤ heightAt vs i ∧ v.2 ≤ heightAt vs i) ∧
    (∀ i j, i < vs.length → j < vs.length → i ≠ j →
      nodeX vs (layoutColumns vs.length) i + widthAt vs i <
        nodeX vs (layoutColumns vs.length) j ∨
      nodeX vs (layoutColumns vs.length) j + widthAt vs j <
        nodeX vs (layoutColumns vs.length) i ∨
      nodeY vs (layoutColumns vs.length) i + heightAt vs i <
        nodeY vs (layoutColumns vs.length) j ∨
      nodeY vs (layoutColumns vs.length) j + heightAt vs j <
        nodeY vs (layoutColumns vs.length) i) := by
  have hN : 0 < vs.length := List.length_pos.2 hne
  have hcols : 1 ≤ layoutColumns vs.length := le_max_left 1 _
  refine ⟨⟨rfl, hcols, ?_, ?_⟩, rfl, ?_, ?_⟩
  · have hdm := Nat.div_add_mod (vs.length + layoutColumns vs.length - 1)
      (layoutColumns vs.length)
    have hmod := Nat.mod_lt (vs.length + layoutColumns vs.length - 1)
      (show 0 < layoutColumns vs.length from hcols)
    simp only [layoutRows]
    omega
  · have hdm := Nat.div_add_mod (vs.length + layoutColumns vs.length - 1)
      (layoutColumns vs.length)
    have hmod := Nat.mod_lt (vs.length + layoutColumns vs.length - 1)
      (show 0 < layoutColumns vs.length from hcols)
    simp only [layoutRows]
    cases hq : (vs.length + layoutColumns vs.length - 1) / layoutColumns vs.length with
    | zero => simpa using hN
    | succ q =>
      have hmul : layoutColumns vs.length * (q + 1 - 1) =
          layoutColumns vs.length * (q + 1) - layoutColumns vs.length := by
        rw [Nat.add_sub_cancel, Nat.mul_add, Nat.mul_one, Nat.add_sub_cancel]
      rw [hmul]
      rw [hq] at hdm
      omega
  · intro i v hv
    have hget : vs.getD i (0, 0) = v := by
      rw [List.getD_eq_getD_get?, hv]
      rfl
    simp only [widthAt, heightAt, hget, nodeWidth, nodeHeight]
    exact ⟨le_max_left _ _, le_trans (le_max_right _ _) (le_refl _),
      le_max_left _ _, le_trans (le_max_right _ _) (le_refl _)⟩
  · intro i j hi hj hij
    rcases Nat.lt_trichotomy (i % layoutColumns vs.length) (j % layoutColumns vs.length)
      with hlt | heq | hgt
    · exact Or.inl (nodeX_gap vs _ i j hi hlt)
    · rcases Nat.lt_trichotomy (i / layoutColumns vs.length) (j / layoutColumns vs.length)
        with hdlt | hdeq | hdgt
      · exact Or.inr (Or.inr (Or.inl (nodeY_gap vs _ i j hi hdlt)))
      · exfalso
        apply hij
        have h1 := Nat.div_add_mod i (layoutColumns vs.length)
        have h2 := Nat.div_add_mod j (layoutColumns vs.length)
        rw [← h1, ← h2, heq, hdeq]
      · exact Or.inr (Or.inr (Or.inr (nodeY_gap vs _ j i hj hdgt)))
    · exact Or.inr (Or.inl (nodeX_gap vs _ j i hj hgt))

/-- C8 witness: the five-visual layout has two columns, the layout entries
are the positioned and resized rectangles, and the first two rectangles do
not overlap. -/
theorem C8_witness :
    layoutColumns 5 = 2 ∧
    (layoutClasses [(100, 100), (300, 200), (100, 100), (100, 500), (100, 100)] =
      (List.range 5).map (fun i =>
        (nodeX [(100, 100), (300, 200), (100, 100), (100, 500), (100, 100)] 2 i,
         nodeY [(100, 100), (300, 200), (100, 100), (100, 500), (100, 100)] 2 i,
         widthAt [(100, 100), (300, 200), (100, 100), (100, 500), (100, 100)] i,
         heightAt [(100, 100), (300, 200), (100, 100), (100, 500), (100, 100)] i))) ∧
    (nodeX [(100, 100), (300, 200), (100, 100), (100, 500), (100, 100)] 2 0 +
        widthAt [(100, 100), (300, 200), (100, 100), (100, 500), (100, 100)] 0 <
      nodeX [(100, 100), (300, 200), (100, 100), (100, 500), (100, 100)] 2 1 ∨
     nodeX [(100, 100), (300, 200), (100, 100), (100, 500), (100, 100)] 2 1 +
        widthAt [(100, 100), (300, 200), (100, 100), (100, 500), (100, 100)] 1 <
      nodeX [(100, 100), (300, 200), (100, 100), (100, 500), (100, 100)] 2 0 ∨
     nodeY [(100, 100), (300, 200), (100, 100), (100, 500), (100, 100)] 2 0 +
        heightAt [(100, 100), (300, 200), (100, 100), (100, 500), (100, 100)] 0 <
      nodeY [(100, 100), (300, 200), (100, 100), (100, 500), (100, 100)] 2 1 ∨
     nodeY [(100, 100), (300, 200), (100, 100), (100, 500), (100, 100)] 2 1 +
        heightAt [(100, 100), (300, 200), (100, 100), (100, 500), (100, 100)] 1 <
      nodeY [(100, 100), (300, 200), (100, 100), (100, 500), (100, 100)] 2 0) := by
  have h := C8_layout_grid [(100, 100), (300, 200), (100, 100), (100, 500), (100, 100)]
    (by simp)
  have hlen : ([((100 : Nat), (100 : Nat)), (300, 200), (100, 100), (100, 500),
      (100, 100)] : List (Nat × Nat)).length = 5 := rfl
  refine ⟨layoutColumns_five, ?_, ?_⟩
  · have h21 := h.2.1
    rw [hlen, layoutColumns_five] at h21
    exact h21
  · have h4 := h.2.2.2 0 1 (by simp) (by simp) (by simp)
    rw [hlen, layoutColumns_five] at h4
    exact h4

/-! ## C9: enum constant extraction -/

theorem takeRunWhile_all (p : Char → Bool) (n : List Char)
    (h : ∀ c ∈ n, p c = true) (rest : List Char)
    (hr : ∀ c, rest.head? = some c → p c = false) :
    takeRunWhile p (n ++ rest) = (n, rest) := by
  induction n with
  | nil =>
    cases rest with
    | nil => rfl
    | cons c r =>
      have := hr c rfl
      simp [takeRunWhile, this]
  | cons c n2 ih =>
    have hc := h c (by simp)
    have ih2 := ih (fun c2 hc2 => h c2 (by simp [hc2]))
    simp [takeRunWhile, hc, ih2]

theorem matchEnumTail_comma (rest : List Char) :
    tryEnumTail (',' :: rest) (spaceRun (',' :: rest)) = some 1 := rfl

theorem enumValueMatchAt_name_comma (n : List Char) (rest : List Char)
    (hne : n ≠ []) (hw : ∀ c ∈ n, isWordChar c = true) :
    enumValueMatchAt (n ++ ',' :: rest) = some (n, n.length + 1) := by
  have htake := takeRunWhile_all isWordChar n hw (',' :: rest)
    (fun c hc => by
      cases hc
      rfl)
  simp only [enumValueMatchAt, htake]
  have hnem : n.isEmpty = false := by
    cases n
    · exact absurd rfl hne
    · rfl
  simp [hnem, matchEnumTail_comma]

theorem enumScanGo_allword (fuel : Nat) (s : List Char)
    (h : ∀ c ∈ s, isWordChar c = true) :
    enumScanGo fuel s = [] := by
  induction s generalizing fuel with
  | nil => cases fuel <;> rfl
  | cons c rest ih =>
    cases fuel with
    | zero => rfl
    | succ f =>
      have hmatch : enumValueMatchAt (c :: rest) = none := by
        have htake := takeRunWhile_all isWordChar (c :: rest) h []
          (fun c2 hc2 => by cases hc2)
        have htake2 : takeRunWhile isWordChar (c :: rest) = (c :: rest, []) := by
          simpa using htake
        simp only [enumValueMatchAt, htake2]
        rfl
      simp only [enumScanGo, hmatch]
      exact ih f (fun c2 hc2 => h c2 (by simp [hc2]))

theorem drop_append_cons (n X : List Char) (c : Char) :
    ((n ++ c :: X).drop (n.length + 1)) = X := by
  induction n with
  | nil => simp
  | cons a n2 ih => simp [ih]

theorem enumScanGo_names : ∀ (names : List (List Char)) (fuel : Nat) (tail : List Char),
    (∀ n ∈ names, n ≠ [] ∧ ∀ c ∈ n, isWordChar c = true) →
    (∀ c ∈ tail, isWordChar c = true) →
    (names.flatMap (fun n => n ++ [','])).length + tail.length ≤ fuel →
    enumScanGo fuel (names.flatMap (fun n => n ++ [',']) ++ tail) =
      names.map (fun n => String.mk n) := by
  intro names
  induction names with
  | nil =>
    intro fuel tail hn ht hfuel
    simp only [List.flatMap_nil, List.nil_append, List.map_nil]
    exact enumScanGo_allword fuel tail ht
  | cons n rest ih =>
    intro fuel tail hn ht hfuel
    obtain ⟨hne, hw⟩ := hn n (by simp)
    have hshape : (n :: rest).flatMap (fun n2 => n2 ++ [',']) ++ tail =
        n ++ ',' :: (rest.flatMap (fun n2 => n2 ++ [',']) ++ tail) := by
      simp [List.flatMap_cons]
    rw [hshape]
    have hmatch := enumValueMatchAt_name_comma n
      (rest.flatMap (fun n2 => n2 ++ [',']) ++ tail) hne hw
    have hlen : (rest.flatMap (fun n2 => n2 ++ [','])).length + tail.length + n.length + 1 ≤
        fuel := by
      rw [List.flatMap_cons, List.length_append, List.length_append] at hfuel
      simp only [List.length_append, List.length_cons, List.length_nil] at hfuel
      omega
    cases n with
    | nil => exact absurd rfl hne
    | cons c0 n2 =>
      cases fuel with
      | zero => omega
      | succ f =>
        have hcons : (c0 :: n2) ++ ',' :: (rest.flatMap (fun n2 => n2 ++ [',']) ++ tail) =
            c0 :: (n2 ++ ',' :: (rest.flatMap (fun n2 => n2 ++ [',']) ++ tail)) := rfl
        rw [hcons] at hmatch ⊢
        simp only [enumScanGo, hmatch]
        rw [show (c0 :: (n2 ++ ',' :: (rest.flatMap (fun n2 => n2 ++ [',']) ++ tail))) =
          ((c0 :: n2) ++ ',' :: (rest.flatMap (fun n2 => n2 ++ [',']) ++ tail)) from rfl]
        rw [drop_append_cons]
        rw [ih f tail (fun n3 hn3 => hn n3 (by simp [hn3])) ht (by omega)]
        rfl

/-- C9 amended: the Java builder satisfies the claim — an enum type model
with three constants yields exactly those three attribute rows, in order,
each with public visibility and with no field-derived content — while the
C# and C++ front-ends record a declared constant only when a comma (or the
already-stripped closing brace) follows it inside the extracted body, so a
comma-terminated constant list is recovered exactly and a final constant
without a trailing comma is dropped. -/
theorem C9_enum_constants_amended :
    (∀ (model : JavaTypeModel) (a b c : String), model.kind = "enum" →
      model.enumConstants = [a, b, c] →
      createClassElementAttrRows model =
        [{ name := a, visibility := "+" }, { name := b, visibility := "+" },
         { name := c, visibility := "+" }]) ∧
    (∀ (names : List (List Char)) (tail : List Char),
      (∀ n ∈ names, n ≠ [] ∧ ∀ c ∈ n, isWordChar c = true) →
      (∀ c ∈ tail, isWordChar c = true) →
      parseEnumConstants (names.flatMap (fun n => n ++ [',']) ++ tail) =
        names.map (fun n => String.mk n)) := by
  constructor
  · intro model a b c hkind hconsts
    have hk : (model.kind == "enum") = true := by simp [hkind]
    simp [createClassElementAttrRows, hk, hconsts]
  · intro names tail hn ht
    exact enumScanGo_names names _ tail hn ht (by simp)

/-- C9 counterexample: a C#-style enum body declaring three constants with
no trailing comma yields only the first two — the extracted body excludes
the closing brace, so the final constant is not followed by `,` or `}` and
the claim's "exactly those three declared constants" fails. -/
theorem C9_counterexample :
    parseEnumConstants
        (extractBody "enum Status \x7b Pending,Active,Completed \x7d".toList 0) =
      ["Pending", "Active"] ∧
    (["Pending", "Active"] : List String) ≠ ["Pending", "Active", "Completed"] := by
  constructor
  · rfl
  · decide

/-- C9 witness: the Java enum model with constants R, G, B yields exactly
those three public attribute rows, and a comma-terminated constant list is
recovered exactly by the C#/C++ scanner. -/
theorem C9_witness :
    createClassElementAttrRows enumColorModel =
      [{ name := "R", visibility := "+" }, { name := "G", visibility := "+" },
       { name := "B", visibility := "+" }] ∧
    parseEnumConstants
        (["RED".toList, "GREEN".toList, "BLUE".toList].flatMap (fun n => n ++ [',']) ++ []) =
      ["RED", "GREEN", "BLUE"] := by
  constructor
  · exact C9_enum_constants_amended.1 enumColorModel "R" "G" "B" rfl rfl
  · have h := C9_enum_constants_amended.2 ["RED".toList, "GREEN".toList, "BLUE".toList] []
      (by decide) (by decide)
    rw [h]
    rfl

/-! ## C5: base-type list splitting -/

theorem wordChar_not_space (c : Char) (h : isWordChar c = true) : isSpaceChar c = false := by
  cases hs : isSpaceChar c
  · rfl
  · exfalso
    simp only [isSpaceChar, Char.isWhitespace] at hs
    rcases Bool.or_eq_true_iff.1 hs with h1 | h1
    · rcases Bool.or_eq_true_iff.1 h1 with h2 | h2
      · rcases Bool.or_eq_true_iff.1 h2 with h3 | h3
        · rw [show c = ' ' from by simpa using h3] at h
          exact absurd h (by decide)
        · rw [show c = '\t' from by simpa using h3] at h
          exact absurd h (by decide)
      · rw [show c = '\r' from by simpa using h2] at h
        exact absurd h (by decide)
    · rw [show c = '\n' from by simpa using h1] at h
      exact absurd h (by decide)

theorem wordChar_ne (c : Char) (h : isWordChar c = true) (x : Char)
    (hx : isWordChar x = false) : c ≠ x := by
  intro heq
  rw [heq, hx] at h
  exact Bool.noConfusion h

theorem dropWhile_eq_self_head {p : Char → Bool} (l : List Char)
    (h : ∀ c, l.head? = some c → p c = false) : l.dropWhile p = l := by
  cases l with
  | nil => rfl
  | cons c rest => simp [List.dropWhile, h c rfl]

theorem mem_of_head? (l : List Char) (c : Char) (h : l.head? = some c) : c ∈ l := by
  cases l with
  | nil => exact Option.noConfusion h
  | cons a rest =>
    have : a = c := by
      injection h
    simp [this]

theorem trim_word (l : List Char) (h : ∀ c ∈ l, isWordChar c = true) : trim l = l := by
  have hinner : l.dropWhile isSpaceChar = l :=
    dropWhile_eq_self_head l
      (fun c hc => wordChar_not_space c (h c (mem_of_head? l c hc)))
  unfold trim
  rw [hinner]
  have houter : l.reverse.dropWhile isSpaceChar = l.reverse :=
    dropWhile_eq_self_head l.reverse (fun c hc =>
      wordChar_not_space c (h c (by
        rw [← List.mem_reverse]
        exact mem_of_head? l.reverse c hc)))
  rw [houter, List.reverse_reverse]

theorem trimTrailingPtrRef_word (l : List Char) (h : ∀ c ∈ l, isWordChar c = true) :
    trimTrailingPtrRef l = l := by
  unfold trimTrailingPtrRef
  have houter : l.reverse.dropWhile (fun c => isSpaceChar c || c == '*' || c == '&') =
      l.reverse := by
    apply dropWhile_eq_self_head
    intro c hc
    have hm : c ∈ l := by
      rw [← List.mem_reverse]
      exact mem_of_head? l.reverse c hc
    have hw := h c hm
    have h1 := wordChar_not_space c hw
    have h2 := wordChar_ne c hw '*' (by decide)
    have h3 := wordChar_ne c hw '&' (by decide)
    simp [h1, h2, h3]
  rw [houter, List.reverse_reverse]

theorem removeConstAux_word (l : List Char) (curr : List Char)
    (h : ∀ c ∈ l, isWordChar c = true) :
    removeConstAux curr l = emitNonConstRun (curr ++ l) := by
  induction l generalizing curr with
  | nil => simp [removeConstAux]
  | cons c rest ih =>
    have hc := h c (by simp)
    simp only [removeConstAux, hc, if_true]
    rw [ih (curr ++ [c]) (fun c2 hc2 => h c2 (by simp [hc2]))]
    simp

theorem removeConstWords_word (l : List Char) (h : ∀ c ∈ l, isWordChar c = true)
    (hne : l ≠ ['c', 'o', 'n', 's', 't']) : removeConstWords l = l := by
  unfold removeConstWords
  rw [removeConstAux_word l [] h]
  simp [emitNonConstRun, hne]

theorem containsColonColon_word (l : List Char) (h : ∀ c ∈ l, isWordChar c = true) :
    containsColonColon l = false := by
  induction l with
  | nil => rfl
  | cons c1 rest ih =>
    cases rest with
    | nil => rfl
    | cons c2 rest2 =>
      have h1 := wordChar_ne c1 (h c1 (by simp)) ':' (by decide)
      have h2 : containsColonColon (c2 :: rest2) = false :=
        ih (fun c hc => h c (by simp [List.mem_cons] at hc ⊢; tauto))
      simp [containsColonColon, h1, h2]

theorem cppTemplateMatch_word (l : List Char) (h : ∀ c ∈ l, isWordChar c = true) :
    cppTemplateMatch l = none := by
  have htake : takeRunWhile (fun c => isWordChar c || c == ':') (l ++ []) = (l, []) :=
    takeRunWhile_all _ l (fun c hc => by simp [h c hc]) [] (fun c hc => by cases hc)
  rw [List.append_nil] at htake
  simp [cppTemplateMatch, htake]

theorem cppParseTypeRef_word (e : List Char) (hne : e ≠ [])
    (hw : ∀ c ∈ e, isWordChar c = true) (hnc : e ≠ ['c', 'o', 'n', 's', 't']) :
    cppParseTypeRef e = some (simpleTD (String.mk e)) := by
  have htrim := trim_word e hw
  have hclean : trim (removeConstWords (trimTrailingPtrRef e)) = e := by
    rw [trimTrailingPtrRef_word e hw, removeConstWords_word e hw hnc, htrim]
  have hempty : (trim e).isEmpty = false := by
    rw [htrim]
    cases e
    · exact absurd rfl hne
    · rfl
  rw [cppParseTypeRef, cppParseTypeRefGo]
  have hempty2 : e.isEmpty = false := by rw [← htrim]; exact hempty
  simp only [htrim, hempty, Bool.false_eq_true, if_false, hclean,
    cppTemplateMatch_word e hw, containsColonColon_word e hw]
  simp [hempty2]

theorem filterMap_all_some {α β : Type} (l : List α) (f : α → Option β) (g : α → β)
    (h : ∀ p ∈ l, f p = some (g p)) : l.filterMap f = l.map g := by
  induction l with
  | nil => rfl
  | cons a rest ih =>
    simp [List.filterMap, h a (by simp), ih (fun p hp => h p (by simp [hp]))]

/-- C5 amended: the C++ and C# front-ends split the base-type list on
*every* comma — a comma nested inside angle-bracket generic arguments also
splits, producing mangled entries — as witnessed by the counterexample.
For base lists whose entries are plain identifiers, the claim's remainder
holds: each entry is stripped, its leading access specifier removed
(C++), and every listed base yields exactly one descriptor bearing the
entry's name in `extends`; in C#, a plain class base and an `I`-prefixed
base land in `extends` and `implements` respectively, both preserved. -/
theorem C5_base_split_amended :
    (∀ s : List Char, s ≠ [] →
      (∀ p ∈ splitOnComma s,
        stripAccessSpec (trim p) ≠ [] ∧
        (∀ c ∈ stripAccessSpec (trim p), isWordChar c = true) ∧
        stripAccessSpec (trim p) ≠ ['c', 'o', 'n', 's', 't']) →
      cppParseBases s =
        (splitOnComma s).map (fun p => simpleTD (String.mk (stripAccessSpec (trim p))))) ∧
    (csharpParseBases "class" "BaseEntity, IComparable".toList =
      ([{ name := "BaseEntity", qualifier := none, arguments := [], dimensions := 0 }],
       [{ name := "IComparable", qualifier := none, arguments := [], dimensions := 0 }])) := by
  constructor
  · intro s hs hp
    have hsne : s.isEmpty = false := by
      cases s
      · exact absurd rfl hs
      · rfl
    simp only [cppParseBases, hsne, Bool.false_eq_true, if_false]
    apply filterMap_all_some
    intro p hpmem
    obtain ⟨h1, h2, h3⟩ := hp p hpmem
    have he : stripAccessSpec (trim p) ≠ [] := h1
    have hif : (stripAccessSpec (trim p)).isEmpty = false := by
      cases hsa : stripAccessSpec (trim p)
      · exact absurd hsa he
      · rfl
    simp only [hif, Bool.false_eq_true, if_false]
    exact cppParseTypeRef_word _ h1 h2 h3
  · rfl

/-- C5 counterexample: the C++ base list `public Base<int, string>, IFoo`
declares two bases, but the comma inside the generic argument list also
splits, yielding three descriptors with mangled names; likewise the single
C# base `List<A, B>` yields two descriptors. -/
theorem C5_counterexample :
    (cppParseBases "public Base<int, string>, IFoo".toList).map (fun d => d.name) =
      ["Base<int", "string>", "IFoo"] ∧
    (cppParseBases "public Base<int, string>, IFoo".toList).length = 3 ∧
    (["Base<int", "string>", "IFoo"] : List String) ≠ ["Base", "IFoo"] ∧
    ((csharpParseBases "class" "List<A, B>".toList).1.map (fun d => d.name) = ["List<A"] ∧
     (csharpParseBases "class" "List<A, B>".toList).2.map (fun d => d.name) = ["B>"]) := by
  refine ⟨rfl, rfl, by decide, rfl, rfl⟩

/-- C5 witness: the plain multiple-inheritance list
`public A, protected B, private C` yields the three bases A, B, C with the
access specifiers stripped. -/
theorem C5_witness :
    cppParseBases "public A, protected B, private C".toList =
      (splitOnComma "public A, protected B, private C".toList).map
        (fun p => simpleTD (String.mk (stripAccessSpec (trim p)))) ∧
    (cppParseBases "public A, protected B, private C".toList).map (fun d => d.name) =
      ["A", "B", "C"] := by
  constructor
  · exact C5_base_split_amended.1 "public A, protected B, private C".toList
      (by decide) (by decide)
  · rfl

/-! ### C6: namespace attribution -/

theorem mem_of_getLast?_eq {α : Type} :
    ∀ (l : List α) (y : α), l.getLast? = some y → y ∈ l
  | [], y, h => Option.noConfusion h
  | [a], y, h => by
    simp [List.getLast?] at h
    simp [h]
  | a :: b :: l, y, h => by
    rw [List.getLast?_cons_cons] at h
    exact List.mem_cons_of_mem a (mem_of_getLast?_eq (b :: l) y h)

theorem pairwise_rel_getLast {α : Type} (R : α → α → Prop) :
    ∀ (l : List α), l.Pairwise R → ∀ x y, x ∈ l → l.getLast? = some y → x = y ∨ R x y
  | [], _, x, _, hx, _ => absurd hx (List.not_mem_nil x)
  | [a], _, x, y, hx, hy => by
    simp [List.getLast?] at hy
    simp at hx
    subst hy
    subst hx
    exact Or.inl rfl
  | a :: b :: l, h, x, y, hx, hy => by
    rw [List.getLast?_cons_cons] at hy
    rcases List.mem_cons.mp hx with hxa | hxl
    · subst hxa
      have hymem : y ∈ b :: l := mem_of_getLast?_eq (b :: l) y hy
      exact Or.inr ((List.pairwise_cons.mp h).1 y hymem)
    · exact pairwise_rel_getLast R (b :: l) (List.pairwise_cons.mp h).2 x y hxl hy

theorem getLast?_ne_none_of_cons {α : Type} :
    ∀ (a : α) (l : List α), (a :: l).getLast? ≠ none
  | _, [] => by simp [List.getLast?]
  | _, b :: l => by
    rw [List.getLast?_cons_cons]
    exact getLast?_ne_none_of_cons b l

theorem getNamespace_filter (ns : List (String × Nat × Nat)) (pos : Nat) :
    getNamespaceAtPosition ns pos =
      (ns.filter (fun t => decide (t.2.1 ≤ pos) && decide (pos ≤ t.2.2))).foldl
        (fun result t =>
          match result with
          | some r => some (r ++ "." ++ t.1)
          | none => some t.1) none := by
  unfold getNamespaceAtPosition
  suffices h : ∀ (l : List (String × Nat × Nat)) (acc : Option String),
      l.foldl
        (fun result t =>
          if t.2.1 ≤ pos ∧ pos ≤ t.2.2 then
            match result with
            | some r => some (r ++ "." ++ t.1)
            | none => some t.1
          else result) acc =
      (l.filter (fun t => decide (t.2.1 ≤ pos) && decide (pos ≤ t.2.2))).foldl
        (fun result t =>
          match result with
          | some r => some (r ++ "." ++ t.1)
          | none => some t.1) acc from h ns none
  intro l
  induction l with
  | nil =>
    intro acc
    rfl
  | cons t rest ih =>
    intro acc
    by_cases hc : t.2.1 ≤ pos ∧ pos ≤ t.2.2
    · have hb : (decide (t.2.1 ≤ pos) && decide (pos ≤ t.2.2)) = true := by
        simp [hc.1, hc.2]
      rw [List.foldl_cons, if_pos hc]
      simp only [List.filter_cons, hb, if_true]
      rw [List.foldl_cons]
      exact ih _
    · have hb : (decide (t.2.1 ≤ pos) && decide (pos ≤ t.2.2)) = false := by
        rcases not_and_or.mp hc with h1 | h1 <;> simp [h1]
      rw [List.foldl_cons, if_neg hc]
      simp only [List.filter_cons, hb, Bool.false_eq_true, if_false]
      exact ih acc

theorem dotFoldAux :
    ∀ (l : List (String × Nat × Nat)) (r : String),
      l.foldl
        (fun result t =>
          match result with
          | some r0 => some (r0 ++ "." ++ t.1)
          | none => some t.1) (some r) =
      some (String.intercalate.go r "." (l.map (fun t => t.1)))
  | [], r => rfl
  | t :: rest, r => by
    rw [List.foldl_cons]
    exact dotFoldAux rest (r ++ "." ++ t.1)

/-- C6 amended: the C++ front-end satisfies the claim.  Its
`_get_namespace_at_position` dot-joins, in list order, the names of every
recorded namespace interval containing the position; for interval lists
that are sorted by start position and laminar (any two intervals disjoint
or nested) — which brace matching yields — this equals the dotted path of
the innermost enclosing namespace described by the spec.  The C# front-end
violates the claim: it records the first namespace declaration found
anywhere in the file as the package of *every* type in the file, as the
counterexample shows. -/
theorem C6_namespace_amended (ns : List (String × Nat × Nat)) (pos : Nat)
    (hsort : List.Pairwise (fun a b => a.2.1 < b.2.1) ns)
    (hlam : ∀ a ∈ ns, ∀ b ∈ ns,
      a.2.2 < b.2.1 ∨ b.2.2 < a.2.1 ∨
      (b.2.1 ≤ a.2.1 ∧ a.2.2 ≤ b.2.2) ∨ (a.2.1 ≤ b.2.1 ∧ b.2.2 ≤ a.2.2)) :
    getNamespaceAtPosition ns pos = specInnermostNamespaceAt ns pos := by
  rw [getNamespace_filter]
  cases hlast : (ns.filter (fun t => decide (t.2.1 ≤ pos) && decide (pos ≤ t.2.2))).getLast? with
  | none =>
    have hnil : ns.filter (fun t => decide (t.2.1 ≤ pos) && decide (pos ≤ t.2.2)) = [] := by
      cases hcc : ns.filter (fun t => decide (t.2.1 ≤ pos) && decide (pos ≤ t.2.2)) with
      | nil => rfl
      | cons a l =>
        rw [hcc] at hlast
        exact absurd hlast (getLast?_ne_none_of_cons a l)
    have hspec : specInnermostNamespaceAt ns pos = none := by
      unfold specInnermostNamespaceAt
      rw [hlast]
    rw [hnil, hspec]
    rfl
  | some inn =>
    have hinnmem : inn ∈ ns.filter (fun t => decide (t.2.1 ≤ pos) && decide (pos ≤ t.2.2)) :=
      mem_of_getLast?_eq _ inn hlast
    have hinnns : inn ∈ ns := List.mem_of_mem_filter hinnmem
    have hinnP := List.of_mem_filter hinnmem
    have hinnle : inn.2.1 ≤ pos ∧ pos ≤ inn.2.2 := by
      simp only [Bool.and_eq_true, decide_eq_true_eq] at hinnP
      exact hinnP
    have hfeq : ns.filter (fun u => decide (u.2.1 ≤ inn.2.1) && decide (inn.2.2 ≤ u.2.2)) =
        ns.filter (fun t => decide (t.2.1 ≤ pos) && decide (pos ≤ t.2.2)) := by
      apply List.filter_congr
      intro u hu
      have hiff : (u.2.1 ≤ inn.2.1 ∧ inn.2.2 ≤ u.2.2) ↔ (u.2.1 ≤ pos ∧ pos ≤ u.2.2) := by
        constructor
        · intro hq
          exact ⟨le_trans hq.1 hinnle.1, le_trans hinnle.2 hq.2⟩
        · intro hP
          rcases hlam u hu inn hinnns with hd1 | hd2 | hsub1 | hsub2
          · omega
          · omega
          · have humem : u ∈ ns.filter (fun t => decide (t.2.1 ≤ pos) && decide (pos ≤ t.2.2)) :=
              List.mem_filter.mpr ⟨hu, by simp [hP.1, hP.2]⟩
            have hcontp : (ns.filter
                (fun t => decide (t.2.1 ≤ pos) && decide (pos ≤ t.2.2))).Pairwise
                (fun a b => a.2.1 < b.2.1) := hsort.filter _
            rcases pairwise_rel_getLast (fun a b => a.2.1 < b.2.1) _ hcontp u inn humem hlast with
              heq | hlt
            · rw [heq]
              exact ⟨le_refl _, le_refl _⟩
            · omega
          · exact hsub2
      rw [Bool.eq_iff_iff]
      simp only [Bool.and_eq_true, decide_eq_true_eq]
      exact hiff
    have hspec : specInnermostNamespaceAt ns pos = some (specNamespacePath ns inn) := by
      unfold specInnermostNamespaceAt
      rw [hlast]
    have hpath : specNamespacePath ns inn =
        String.intercalate "."
          ((ns.filter (fun t => decide (t.2.1 ≤ pos) && decide (pos ≤ t.2.2))).map
            (fun t => t.1)) := by
      unfold specNamespacePath
      rw [hfeq]
    rw [hspec, hpath]
    cases hcc : ns.filter (fun t => decide (t.2.1 ≤ pos) && decide (pos ≤ t.2.2)) with
    | nil =>
      rw [hcc] at hlast
      exact Option.noConfusion hlast
    | cons t rest =>
      exact dotFoldAux rest t.1

/-- C6 counterexample: a file declaring `namespace A` with `class X` and a
sibling `namespace B` with `class Y` — per the spec, `Y` lies in the
brace-matched interval of `B` only, so its recorded namespace must be `B`;
the C# front-end instead records the file-wide first namespace `A` for
every type, including `Y`. -/
theorem C6_counterexample :
    csharpFileNamespace twoNamespaceContent = some "A" ∧
    specInnermostNamespaceAt (findNamespaces twoNamespaceContent) classYOffset = some "B" ∧
    (some "A" : Option String) ≠ some "B" := by
  refine ⟨rfl, rfl, by decide⟩

/-- C6 witness: on the namespace intervals the C++ front-end extracts from
the two-namespace file (sorted and laminar), the code and the spec agree
at the offset of `class Y`, both giving namespace `B`. -/
theorem C6_witness :
    getNamespaceAtPosition (findNamespaces twoNamespaceContent) classYOffset =
      specInnermostNamespaceAt (findNamespaces twoNamespaceContent) classYOffset ∧
    getNamespaceAtPosition (findNamespaces twoNamespaceContent) classYOffset = some "B" :=
  ⟨C6_namespace_amended (findNamespaces twoNamespaceContent) classYOffset
      (by decide) (by decide),
   rfl⟩

end UmlfriImport
